import Mathlib

/-!
Verification development for the cerbero packaging layer
(`cerbero/packages/packagesstore.py` and `cerbero/packages/wix.py`).

The Python code is shallowly embedded: pure computations become Lean
functions, the stateful XML builders become explicit state passing, and
Python exceptions (`PackageNotFoundError`, `AttributeError`, recursion
overflow) become an explicit result type `PRes`.  Recursions of the
Python code that are not structurally decreasing are driven by an
explicit fuel counter; `PRes.fuelOut` for every fuel value models
non-termination of the source.
-/

namespace Cerbero

/-- Modelled from the spec: a plain package descriptor object
(`cerbero.packages.package.Package`, whose module is not part of the
sources under inspection).  Only the attributes the inspected code reads
are modelled: `name`, the ordered list `deps` of direct dependency
names, and the file list returned by `get_files_list()`. -/
structure Package where
  name : String
  deps : List String
  files : List String
deriving DecidableEq, Repr

/-- Modelled from the spec: a `MetaPackage` descriptor object: no own
files, an ordered list of `(package-name, required, selected)` triples. -/
structure MetaPackage where
  name : String
  packages : List (String × Bool × Bool)
deriving DecidableEq, Repr

/-- A registered descriptor is either a plain `Package` or a `MetaPackage`. -/
inductive PackageBase where
  | pkg (p : Package)
  | meta (m : MetaPackage)
deriving DecidableEq, Repr

def PackageBase.name : PackageBase → String
  | .pkg p => p.name
  | .meta m => m.name

/-- Modelled from the spec: `MetaPackage.list_packages()` returns the
constituent package names of the metapackage. -/
def MetaPackage.listPackages (m : MetaPackage) : List String :=
  m.packages.map (·.1)

/-- Modelled from the spec: `get_files_list()`; a `MetaPackage` has no
own files. -/
def PackageBase.getFilesList : PackageBase → List String
  | .pkg p => p.files
  | .meta _ => []

/-- Names a descriptor directly references during dependency
resolution: the `deps` list of a plain package, the constituent names
of a metapackage. -/
def PackageBase.refNames : PackageBase → List String
  | .pkg q => q.deps
  | .meta m => m.listPackages

/-- Result of running a piece of the Python code: a value, a
`PackageNotFoundError` carrying the missing name, some other Python
exception (`err`, e.g. the `AttributeError` raised by reading `.deps`
off a `MetaPackage`), or fuel exhaustion (`fuelOut`), which models a
computation that needs more recursion depth than the given fuel --
so `fuelOut` for every fuel models non-termination of the source. -/
inductive PRes (α : Type) where
  | ok (a : α)
  | notFound (n : String)
  | err
  | fuelOut
deriving DecidableEq, Repr

/-- The `PackagesStore._packages` dict.  `add_package` keys every entry
by `package.name`, so the dict is faithfully a collection of packages
looked up by their own name. -/
abbrev Store := List PackageBase

def storeNames (s : Store) : List String := s.map PackageBase.name

/-- Embedding of `PackagesStore.get_package`: raises
`PackageNotFoundError(name)` when the name is not registered. -/
def getPackage (s : Store) (n : String) : PRes PackageBase :=
  match s.find? (fun p => p.name == n) with
  | some p => .ok p
  | none => .notFound n

/-- Embedding of the inner DFS of `PackagesStore._list_metapackage_deps`
(`get_package_deps(package_name, visited, depslist)`), one recursion
level per fuel unit.  A visited name returns at once; an unvisited one
is appended to `visited`, its package appended to `depslist`, and its
`deps` are walked in order.  Reading `.deps` off a `MetaPackage` raises
(`err`).  `dfsListAux` is the `for p_name in p.deps` loop. -/
def dfsListAux (f : List String → List PackageBase → String →
    PRes (List String × List PackageBase)) :
    List String → List PackageBase → List String →
    PRes (List String × List PackageBase)
  | visited, depslist, [] => .ok (visited, depslist)
  | visited, depslist, n :: ns =>
    match f visited depslist n with
    | .ok (v', d') => dfsListAux f v' d' ns
    | .notFound m => .notFound m
    | .err => .err
    | .fuelOut => .fuelOut

def dfs (s : Store) : Nat → List String → List PackageBase → String →
    PRes (List String × List PackageBase)
  | 0, _, _, _ => .fuelOut
  | fuel + 1, visited, depslist, name =>
    if name ∈ visited then .ok (visited, depslist)
    else
      match s.find? (fun p => p.name == name) with
      | none => .notFound name
      | some (.meta _) => .err
      | some (.pkg q) =>
        dfsListAux (dfs s fuel) (visited ++ [name])
          (depslist ++ [.pkg q]) q.deps

/-- Embedding of the `for p in metapackage.list_packages()` loop of
`_list_metapackage_deps`: each constituent starts a fresh DFS with
empty `visited` and `depslist`, and the results are concatenated. -/
def metaDepsLoop (s : Store) (fuel : Nat) : List String → PRes (List PackageBase)
  | [] => .ok []
  | c :: cs =>
    match dfs s fuel [] [] c with
    | .ok (_, d) =>
      match metaDepsLoop s fuel cs with
      | .ok rest => .ok (d ++ rest)
      | .notFound m => .notFound m
      | .err => .err
      | .fuelOut => .fuelOut
    | .notFound m => .notFound m
    | .err => .err
    | .fuelOut => .fuelOut

/-- Embedding of `PackagesStore._list_metapackage_deps`.  The final
`list(set(deps))` is modelled by `List.dedup`; Python leaves the set
order unspecified and both consumers (`get_package_deps`,
`_list_metapackage_files`) re-sort, so the first-occurrence order chosen
here is observationally equivalent. -/
def listMetapackageDeps (s : Store) (fuel : Nat) (mp : MetaPackage) :
    PRes (List PackageBase) :=
  match metaDepsLoop s fuel mp.listPackages with
  | .ok d => .ok d.dedup
  | .notFound m => .notFound m
  | .err => .err
  | .fuelOut => .fuelOut

/-- Python string comparison on char lists: lexicographic by unicode
code point, a proper initial segment comparing as smaller. -/
def charsLe : List Char → List Char → Bool
  | [], _ => true
  | _ :: _, [] => false
  | a :: as, b :: bs =>
    if a = b then charsLe as bs else decide (a < b)

/-- Python `s1 <= s2` on strings. -/
def strLe (a b : String) : Bool := charsLe a.data b.data

/-- Insertion into a `strLe`-sorted list of strings. -/
def insertStr (x : String) : List String → List String
  | [] => [x]
  | y :: ys => if strLe x y then x :: y :: ys else y :: insertStr x ys

/-- Embedding of Python `sorted` on a list of strings.  Python's sort is
a stable mergesort, but equal strings are indistinguishable values, so
the output is determined by the multiset of elements and the total order
`strLe`; any correct sort produces the identical list. -/
def sortStrs : List String → List String
  | [] => []
  | x :: xs => insertStr x (sortStrs xs)

/-- Embedding of `sorted(set(ret))` on a list of names. -/
def sortedSet (l : List String) : List String :=
  sortStrs l.dedup

/-- Embedding of the comprehension `[self.get_package(x) for x in ret]`:
the first unregistered name raises `PackageNotFoundError`. -/
def mapGet (s : Store) : List String → PRes (List PackageBase)
  | [] => .ok []
  | n :: ns =>
    match getPackage s n with
    | .ok p =>
      match mapGet s ns with
      | .ok l => .ok (p :: l)
      | .notFound m => .notFound m
      | .err => .err
      | .fuelOut => .fuelOut
    | .notFound m => .notFound m
    | .err => .err
    | .fuelOut => .fuelOut

/-- Tail of `get_package_deps`: `ret = sorted(set(ret))` followed by
`[self.get_package(x) for x in ret]`. -/
def finalize (s : Store) (acc : List String) : PRes (List PackageBase) :=
  mapGet s (sortedSet acc)

/-- Embedding of the target resolution at the head of
`get_package_deps`: an instance argument is used as is
(`isinstance(pkg, package.Package)`), a string argument is looked up. -/
def resolveTarget (s : Store) : PackageBase ⊕ String → PRes PackageBase
  | .inl p => .ok p
  | .inr n => getPackage s n

/-- Direct dependency-name list of a resolved target in
`get_package_deps`: `[d.name for d in self._list_metapackage_deps(p)]`
for a `MetaPackage`, `p.deps` for a plain package. -/
def baseDeps (s : Store) (fuel : Nat) : PackageBase → PRes (List String)
  | .pkg q => .ok q.deps
  | .meta mp =>
    match listMetapackageDeps s fuel mp with
    | .ok d => .ok (d.map PackageBase.name)
    | .notFound m => .notFound m
    | .err => .err
    | .fuelOut => .fuelOut

/-- Fuel-indexed pair of the two mutually recursive pieces of
`PackagesStore.get_package_deps`: the first component is the function
itself, the second the `for name in ret: ret += [d.name for d in
self.get_package_deps(name, recursive)]` loop.  Python iterates `ret`
while extending it, so the loop is a worklist whose processed part is
`acc` and whose unprocessed suffix is `work`; appended names join both.
One fuel unit is consumed per call / loop iteration, so `fuelOut` at
every fuel models the unbounded recursion of the source. -/
def gpdF (s : Store) : Nat →
    ((PackageBase ⊕ String) → Bool → PRes (List PackageBase)) ×
    (List String → List String → PRes (List String))
  | 0 =>
    ( fun _ _ => .fuelOut
    , fun acc work =>
        match work with
        | [] => .ok acc
        | _ :: _ => .fuelOut )
  | fuel + 1 =>
    ( fun target rec =>
        match resolveTarget s target with
        | .ok p =>
          match baseDeps s (fuel + 1) p with
          | .ok ret =>
            if rec then
              match (gpdF s fuel).2 ret ret with
              | .ok acc => finalize s acc
              | .notFound m => .notFound m
              | .err => .err
              | .fuelOut => .fuelOut
            else finalize s ret
          | .notFound m => .notFound m
          | .err => .err
          | .fuelOut => .fuelOut
        | .notFound m => .notFound m
        | .err => .err
        | .fuelOut => .fuelOut
    , fun acc work =>
        match work with
        | [] => .ok acc
        | n :: rest =>
          match (gpdF s fuel).1 (.inr n) true with
          | .ok ds =>
            (gpdF s fuel).2 (acc ++ ds.map PackageBase.name)
              (rest ++ ds.map PackageBase.name)
          | .notFound m => .notFound m
          | .err => .err
          | .fuelOut => .fuelOut )

/-- Embedding of `PackagesStore.get_package_deps(pkg, recursive)`. -/
def getPackageDeps (s : Store) (fuel : Nat) (target : PackageBase ⊕ String)
    (rec : Bool) : PRes (List PackageBase) :=
  (gpdF s fuel).1 target rec

/-- Embedding of `PackagesStore._list_metapackage_files`: concatenate
`get_files_list()` over the metapackage dependency closure, then
`sorted(list(set(l)))`. -/
def extendFiles : List PackageBase → List String
  | [] => []
  | p :: ps => p.getFilesList ++ extendFiles ps

def listMetapackageFiles (s : Store) (fuel : Nat) (mp : MetaPackage) :
    PRes (List String) :=
  match listMetapackageDeps s fuel mp with
  | .ok ds => .ok (sortStrs (extendFiles ds).dedup)
  | .notFound m => .notFound m
  | .err => .err
  | .fuelOut => .fuelOut

/-- Embedding of `PackagesStore.get_package_files_list(name)`. -/
def getPackageFilesList (s : Store) (fuel : Nat) (n : String) :
    PRes (List String) :=
  match getPackage s n with
  | .ok (.meta mp) =>
    match listMetapackageFiles s fuel mp with
    | .ok l => .ok (sortStrs l)
    | .notFound m => .notFound m
    | .err => .err
    | .fuelOut => .fuelOut
  | .ok (.pkg p) => .ok (sortStrs p.files)
  | .notFound m => .notFound m
  | .err => .err
  | .fuelOut => .fuelOut

/-! Embedding of `cerbero/packages/wix.py`. -/

/-- Replacement of every occurrence of the single character `target` by
the character list `repl` (Python `str.replace` with a one-character
pattern, as used by `_format_id`; `repl = []` models replacement by the
empty string). -/
def replaceAll (target : Char) (repl : List Char) : List Char → List Char
  | [] => []
  | c :: cs =>
    if c = target then repl ++ replaceAll target repl cs
    else c :: replaceAll target repl cs

/-- Embedding of `WixBase._format_id`: escape the separator by doubling
it (`'_' -> '__'`), replace `/`, `-`, space, `@`, `+` by `_` in that
order, optionally strip periods, and put a `_` marker in front (for
tokens starting with a digit). -/
def formatId (s : String) (replaceDots : Bool) : String :=
  let r1 := replaceAll '_' [ '_', '_'] s.data
  let r2 := replaceAll '/' [ '_'] r1
  let r3 := replaceAll '-' [ '_'] r2
  let r4 := replaceAll (Char.ofNat 32) [ '_'] r3
  let r5 := replaceAll '@' [ '_'] r4
  let r6 := replaceAll '+' [ '_'] r5
  let r7 := if replaceDots then replaceAll '.' [] r6 else r6
  String.mk ( '_' :: r7)

/-- Embedding of `posixpath.split` (the `os.path.split` used on the
POSIX build hosts): split at the last slash; the head keeps no trailing
slashes unless it consists only of slashes. -/
def pySplit (p : String) : String × String :=
  let rev := p.data.reverse
  let tailRev := rev.takeWhile (fun c => !(c == '/'))
  let headRev := rev.dropWhile (fun c => !(c == '/'))
  let headRev2 :=
    if headRev.all (fun c => c == '/') then headRev
    else headRev.dropWhile (fun c => c == '/')
  (String.mk headRev2.reverse, String.mk tailRev.reverse)

/-- Embedding of `posixpath.join` on two components, as used for
`os.path.join(self.prefix, filepath)`. -/
def startsSlash (s : String) : Bool :=
  match s.data with
  | c :: _ => c == '/'
  | [] => false

def endsSlash (s : String) : Bool :=
  match s.data.getLast? with
  | some c => c == '/'
  | none => false

def pyJoin (a b : String) : String :=
  if startsSlash b then b
  else if a.data = [] then b
  else if endsSlash a then String.mk (a.data ++ b.data)
  else String.mk (a.data ++ '/' :: b.data)

/-- The `self.ids` dict of `WixBase`: sanitized token -> last used
suffix count.  Updates overwrite the single binding of a key. -/
abbrev Ids := List (String × Nat)

def idsFind (ids : Ids) (k : String) : Option Nat :=
  (ids.find? (fun kv => kv.1 == k)).map (·.2)

def idsSet (ids : Ids) (k : String) (n : Nat) : Ids :=
  (k, n) :: ids.filter (fun kv => !(kv.1 == k))

/-- The sanitized token `_format_path_id` derives from a path before
consulting the collision counter: `_format_id(os.path.split(path)[1])`. -/
def pathToken (p : String) (replaceDots : Bool) : String :=
  formatId (pySplit p).2 replaceDots

/-- Embedding of `WixBase._format_path_id`: a fresh token is recorded
with count 0 and returned bare; a seen token's count is bumped and the
new count appended as `_count` (Python `'%s_%s' % (ret, self.ids[ret])`,
`Nat.repr` being Python decimal formatting). -/
def formatPathId (ids : Ids) (path : String) (replaceDots : Bool) :
    String × Ids :=
  let ret := pathToken path replaceDots
  match idsFind ids ret with
  | none => (ret, idsSet ids ret 0)
  | some k =>
    let k' := k + 1
    (if k' ≠ 0 then ret ++ "_" ++ Nat.repr k' else ret, idsSet ids ret k')

/-- Run of successive `_format_path_id` calls on one builder
(path, replace_dots flag), returning the issued identifiers. -/
def runPathIds (ids : Ids) : List (String × Bool) → List String × Ids
  | [] => ([], ids)
  | (p, rd) :: rest =>
    let r := formatPathId ids p rd
    let out := runPathIds r.2 rest
    (r.1 :: out.1, out.2)

/-- Creation events of the merge-module document tree, in document
construction order.  The fixed preamble built by `_add_root`,
`_add_module`, `_add_package` and `_add_root_dir` carries no per-file
structure and is not recorded; the root Directory node (`TARGETDIR`)
is registered under path `""`.  `Guid=self._get_uuid()` draws from an
external entropy source (`uuid.uuid1`) and is not modelled. -/
inductive Ev where
  | dir (path parent id : String)
  | comp (dirpath id : String)
  | file (id : String)
deriving DecidableEq, Repr

/-- Mutable state of a `MergeModule` builder while `_add_files` runs:
the `_dirnodes` memoization dict (path -> Directory node, recorded here
as the list of registered paths in creation order), the document events,
and the `self.ids` collision counters. -/
structure MMState where
  dirnodes : List String
  events : List Ev
  ids : Ids
deriving DecidableEq, Repr

/-- Embedding of `MergeModule._add_directory`, one recursion level per
fuel unit (`none` models a Python `RecursionError`, or the `KeyError`
the trailing dict access would raise — neither is reachable from
`_add_file` on relative paths).  The source compares
`parentpath == []`, a string against a list, which is always false;
that dead branch is dropped. -/
def addDirectory : Nat → MMState → String → Option MMState
  | 0, _, _ => none
  | fuel + 1, st, dirpath =>
    if dirpath ∈ st.dirnodes then some st
    else
      let parentpath := (pySplit dirpath).1
      let r :=
        if parentpath ∈ st.dirnodes then some st
        else addDirectory fuel st parentpath
      match r with
      | none => none
      | some st1 =>
        if parentpath ∈ st1.dirnodes then
          let pr := formatPathId st1.ids dirpath false
          some { dirnodes := st1.dirnodes ++ [dirpath]
               , events := st1.events ++ [Ev.dir dirpath parentpath pr.1]
               , ids := pr.2 }
        else none

/-- Embedding of `MergeModule._add_file`: ensure the parent Directory
chain exists, then attach one Component (id from the relative path) and
inside it one File (id from the prefix-joined path, dots stripped).
`to_winepath` only rewrites the `Source` attribute string under wine and
is not modelled. -/
def addFile (fuel : Nat) (pfx : String) (st : MMState) (filepath : String) :
    Option MMState :=
  let dirpath := (pySplit filepath).1
  match addDirectory fuel st dirpath with
  | none => none
  | some st1 =>
    if dirpath ∈ st1.dirnodes then
      let c := formatPathId st1.ids filepath false
      let joined := pyJoin pfx filepath
      let f := formatPathId c.2 joined true
      some { dirnodes := st1.dirnodes
           , events := st1.events ++ [Ev.comp dirpath c.1, Ev.file f.1]
           , ids := f.2 }
    else none

/-- Embedding of `MergeModule._add_files`. -/
def addFiles (fuel : Nat) (pfx : String) : MMState → List String → Option MMState
  | st, [] => some st
  | st, f :: fs =>
    match addFile fuel pfx st f with
    | none => none
    | some st1 => addFiles fuel pfx st1 fs

def mmInitState (ids0 : Ids) : MMState :=
  { dirnodes := [""], events := [], ids := ids0 }

/-- Embedding of `MergeModule._fill`: build the preamble (root dir
registered at `""`), then add every file. -/
def mmFill (fuel : Nat) (pfx : String) (files : List String) (ids0 : Ids) :
    Option MMState :=
  addFiles fuel pfx (mmInitState ids0) files

/-- A `MergeModule` builder: the one-shot `filled` guard plus the
document state. -/
structure MergeModuleB where
  filled : Bool
  st : MMState
deriving DecidableEq, Repr

/-- Embedding of `WixBase.fill` on a `MergeModule`: a no-op once
`filled` is set, otherwise `_fill` runs (rebuilding the document, the
`self.ids` counters persisting) and `filled` is set. -/
def mmFillOp (fuel : Nat) (pfx : String) (files : List String)
    (b : MergeModuleB) : Option MergeModuleB :=
  if b.filled then some b
  else
    match mmFill fuel pfx files b.st.ids with
    | none => none
    | some st1 => some { filled := true, st := st1 }

/-! Embedding of `MSI._add_merge_modules` / `MSI._add_merge_module`
(the computations behind the Feature/MergeRef structure; the XML nodes
carry exactly the computed package identities). -/

/-- `packages = [(self.store.get_package(x[0]), x[1], x[2]) for x in
self.package.packages]`. -/
def resolveTriples (s : Store) :
    List (String × Bool × Bool) → PRes (List (PackageBase × Bool × Bool))
  | [] => .ok []
  | (n, r, sel) :: ts =>
    match getPackage s n with
    | .ok p =>
      match resolveTriples s ts with
      | .ok rest => .ok ((p, r, sel) :: rest)
      | .notFound m => .notFound m
      | .err => .err
      | .fuelOut => .fuelOut
    | .notFound m => .notFound m
    | .err => .err
    | .fuelOut => .fuelOut

/-- `packages = [x for x in packages if x[0] in self.packages_deps]`
(empty packages removed). -/
def msiActivePackages (pd : List PackageBase)
    (l : List (PackageBase × Bool × Bool)) : List (PackageBase × Bool × Bool) :=
  l.filter (fun x => decide (x.1 ∈ pd))

/-- `req = [x[0] for x in packages if x[1] == True]`. -/
def msiReq (l : List (PackageBase × Bool × Bool)) : List PackageBase :=
  (l.filter (fun x => x.2.1 == true)).map (·.1)

/-- `for p in req: required_packages.extend(self.store.get_package_deps(p))`
— note `get_package_deps` is called with its default `recursive=False`. -/
def reqExtendLoop (s : Store) (fuel : Nat) :
    List PackageBase → PRes (List PackageBase)
  | [] => .ok []
  | p :: ps =>
    match getPackageDeps s fuel (.inl p) false with
    | .ok ds =>
      match reqExtendLoop s fuel ps with
      | .ok rest => .ok (ds ++ rest)
      | .notFound m => .notFound m
      | .err => .err
      | .fuelOut => .fuelOut
    | .notFound m => .notFound m
    | .err => .err
    | .fuelOut => .fuelOut

/-- The `required_packages` list of `_add_merge_modules`: the required
active constituents themselves (`req[:]`) followed by everything the
extension loop appends. -/
def msiRequiredPackages (s : Store) (fuel : Nat) (pd : List PackageBase)
    (mp : MetaPackage) : PRes (List PackageBase) :=
  match resolveTriples s mp.packages with
  | .ok trips =>
    let req := msiReq (msiActivePackages pd trips)
    match reqExtendLoop s fuel req with
    | .ok ext => .ok (req ++ ext)
    | .notFound m => .notFound m
    | .err => .err
    | .fuelOut => .fuelOut
  | .notFound m => .notFound m
  | .err => .err
  | .fuelOut => .fuelOut

/-- The dependency MergeRefs `_add_merge_module` keeps for one feature:
for a required package `[x for x in deps if x in required_packages]`,
otherwise `list(set(deps) - set(required_packages))` (the set difference
is returned in first-occurrence order; only its membership is
observable to the claims). -/
def msiMergeRefs (deps requiredPackages : List PackageBase)
    (required : Bool) : List PackageBase :=
  if required then deps.filter (fun x => decide (x ∈ requiredPackages))
  else deps.dedup.filter (fun x => decide (x ∉ requiredPackages))

/-- All MergeRef identities placed under one constituent's Feature:
the filtered dependency refs, then the package's own ref. -/
def msiFeatureRefs (s : Store) (fuel : Nat) (p : PackageBase)
    (required : Bool) (requiredPackages : List PackageBase) :
    PRes (List PackageBase) :=
  match getPackageDeps s fuel (.inl p) false with
  | .ok deps => .ok (msiMergeRefs deps requiredPackages required ++ [p])
  | .notFound m => .notFound m
  | .err => .err
  | .fuelOut => .fuelOut

/-- Follows the words of claim C1, for comparison with the
source-derived `msiRequiredPackages`: the union, over every constituent
marked required in the MetaPackage's package list, of that package
itself and its transitive dependency closure (the DFS walk from that
package yields exactly the package followed by everything reachable). -/
def claimRequiredClosure (s : Store) (fuel : Nat) :
    List String → PRes (List PackageBase)
  | [] => .ok []
  | c :: cs =>
    match dfs s fuel [] [] c with
    | .ok (_, d) =>
      match claimRequiredClosure s fuel cs with
      | .ok rest => .ok (d ++ rest)
      | .notFound m => .notFound m
      | .err => .err
      | .fuelOut => .fuelOut
    | .notFound m => .notFound m
    | .err => .err
    | .fuelOut => .fuelOut

def claimRequiredSet (s : Store) (fuel : Nat) (mp : MetaPackage) :
    PRes (List PackageBase) :=
  claimRequiredClosure s fuel
    ((mp.packages.filter (fun t => t.2.1 == true)).map (·.1))

/-! Embedding of registry loading (`PackagesStore.__init__`,
`_load_packages`, `_load_package_from_file`). -/

/-- Modelled from the spec: the outcome of executing one descriptor file
(`_load_package_from_file`): `parsed = some p` when the file defines a
recognized `Package`/`MetaPackage` that instantiates and prepares
without error, `none` when parsing raises or no recognized type is
defined (the loader catches every exception and returns `None`). -/
structure LoadEntry where
  fname : String
  parsed : Option PackageBase
deriving DecidableEq, Repr

/-- Embedding of `PackagesStore.add_package`: a dict write keyed by the
package's own name; the newest binding wins on lookup. -/
def addPackage (s : Store) (p : PackageBase) : Store := p :: s

def listEndsWith (suf l : List Char) : Bool :=
  if suf.length ≤ l.length then decide (l.drop (l.length - suf.length) = suf)
  else false

def strEndsWith (s suf : String) : Bool := listEndsWith suf.data s.data

/-- One iteration of the `_load_packages` loop: files without the
`.package` extension are skipped silently; a failed descriptor logs a
warning (counted here) and is skipped; a parsed package is added. -/
def loadStep (acc : Store × Nat) (e : LoadEntry) : Store × Nat :=
  if strEndsWith e.fname ".package" then
    match e.parsed with
    | none => (acc.1, acc.2 + 1)
    | some p => (addPackage acc.1 p, acc.2)
  else acc

/-- Embedding of `PackagesStore._load_packages` over the directory
listing: returns the populated store and the number of warnings. -/
def loadPackages (es : List LoadEntry) : Store × Nat :=
  es.foldl loadStep ([], 0)

/-- Embedding of `PackagesStore.__init__` (with `load=True`): a missing
packages directory raises `FatalError` before any descriptor is read;
otherwise every descriptor is processed. -/
def storeInit (dirExists : Bool) (es : List LoadEntry) :
    Except String (Store × Nat) :=
  if dirExists then .ok (loadPackages es)
  else .error "Packages dir not found"

/-- Directory paths receiving a Directory node, in creation order. -/
def dirPaths : List Ev → List String
  | [] => []
  | .dir p _ _ :: evs => p :: dirPaths evs
  | .comp _ _ :: evs => dirPaths evs
  | .file _ :: evs => dirPaths evs

/-- Well-formedness of a creation-event trace given the directory paths
`seen` that already carry a node: every Directory node is created under
an already-existing parent, no path ever receives a second Directory
node, and every Component is attached to an already-created directory
node. -/
def wfEvents : List String → List Ev → Bool
  | _, [] => true
  | seen, .dir p parent _ :: evs =>
    decide (parent ∈ seen) && !decide (p ∈ seen) && wfEvents (seen ++ [p]) evs
  | seen, .comp dp _ :: evs => decide (dp ∈ seen) && wfEvents seen evs
  | seen, .file _ :: evs => wfEvents seen evs

/-- Invariant tying the `_dirnodes` memoization dict to the event
trace: the registered paths are the root `""` plus the created
directory paths, and the trace is well formed. -/
def mmInv (st : MMState) : Prop :=
  wfEvents [""] st.events = true ∧ st.dirnodes = "" :: dirPaths st.events

/-- Measure driving the termination argument for the visited-set DFS:
the registered names not yet visited. -/
def unvisited (s : Store) (v : List String) : Finset String :=
  (storeNames s).toFinset.filter (fun x => x ∉ v)

/-! Concrete registries exercised by the witnesses and counterexamples
below. -/

def pBase : Package := { name := "base", deps := [], files := ["f2", "f1"] }

def pCore : Package := { name := "core", deps := ["base"], files := ["f2", "f3"] }

def pApp : Package := { name := "app", deps := ["core"], files := [] }

def mpDemo : MetaPackage :=
  { name := "m", packages := [("app", true, true), ("core", false, true)] }

def demoStore : Store := [.meta mpDemo, .pkg pApp, .pkg pBase, .pkg pCore]

/-- The two-package dependency cycle of the spec's termination example. -/
def cycA : Package := { name := "A", deps := ["B"], files := [] }

def cycB : Package := { name := "B", deps := ["A"], files := [] }

def mpCyc : MetaPackage := { name := "mc", packages := [("A", true, true)] }

def cycStore : Store := [.meta mpCyc, .pkg cycA, .pkg cycB]

/-- Registry separating direct from transitive dependencies: `p1 -> p2 ->
p3`, and an optional `q` depending on `p3`. -/
def c1p1 : Package := { name := "p1", deps := ["p2"], files := ["f"] }

def c1p2 : Package := { name := "p2", deps := ["p3"], files := ["f"] }

def c1p3 : Package := { name := "p3", deps := [], files := ["f"] }

def c1q : Package := { name := "q", deps := ["p3"], files := ["f"] }

def c1mp : MetaPackage :=
  { name := "sdk", packages := [("p1", true, true), ("q", false, true)] }

def c1store : Store :=
  [.meta c1mp, .pkg c1p1, .pkg c1p2, .pkg c1p3, .pkg c1q]

def c1pd : List PackageBase :=
  [.pkg c1p1, .pkg c1p2, .pkg c1p3, .pkg c1q]

/-- A package whose own file list repeats an entry. -/
def dupPkg : Package := { name := "dup", deps := [], files := ["a", "a"] }

def dupStore : Store := [.pkg dupPkg]

/-- A package whose dependency list names an unregistered package, and a
metapackage whose first constituent is unregistered. -/
def ghostPkg : Package := { name := "g", deps := ["ghost"], files := [] }

def mpGhost : MetaPackage := { name := "mg", packages := [("ghost", true, true)] }

def ghostStore : Store := [.meta mpGhost, .pkg ghostPkg]

/-- Directory listing with one good descriptor, one bad descriptor and
one unrelated file. -/
def loadEntries : List LoadEntry :=
  [ { fname := "good.package", parsed := some (.pkg pBase) }
  , { fname := "bad.package", parsed := none }
  , { fname := "README", parsed := none } ]

/-! Order lemmas for the embedded Python string comparison. -/

theorem charsLe_total : ∀ as bs : List Char,
    charsLe as bs = true ∨ charsLe bs as = true := by
  intro as
  induction as with
  | nil => intro bs; left; rfl
  | cons a as ih =>
    intro bs
    cases bs with
    | nil => right; rfl
    | cons b bs =>
      by_cases h : a = b
      · subst h
        simpa [charsLe] using ih bs
      · rcases lt_trichotomy a b with hlt | heq | hgt
        · left; simp [charsLe, h, hlt]
        · exact absurd heq h
        · right; simp [charsLe, Ne.symm h, hgt]

theorem charsLe_trans : ∀ as bs cs : List Char,
    charsLe as bs = true → charsLe bs cs = true → charsLe as cs = true := by
  intro as
  induction as with
  | nil => intro bs cs _ _; rfl
  | cons a as ih =>
    intro bs cs h1 h2
    cases bs with
    | nil => simp [charsLe] at h1
    | cons b bs =>
      cases cs with
      | nil => simp [charsLe] at h2
      | cons c cs =>
        by_cases hab : a = b
        · subst hab
          by_cases hac : a = c
          · subst hac
            simp only [charsLe, if_pos rfl] at h1 h2 ⊢
            exact ih bs cs h1 h2
          · simp only [charsLe, if_pos rfl] at h1
            simp only [charsLe, if_neg hac] at h2 ⊢
            exact h2
        · simp only [charsLe, if_neg hab, decide_eq_true_eq] at h1
          by_cases hbc : b = c
          · subst hbc
            simp only [charsLe, if_neg hab, decide_eq_true_eq]
            exact h1
          · simp only [charsLe, if_neg hbc, decide_eq_true_eq] at h2
            have hac : a < c := lt_trans h1 h2
            simp only [charsLe, if_neg (ne_of_lt hac), decide_eq_true_eq]
            exact hac

theorem charsLe_antisymm : ∀ as bs : List Char,
    charsLe as bs = true → charsLe bs as = true → as = bs := by
  intro as
  induction as with
  | nil =>
    intro bs _ h2
    cases bs with
    | nil => rfl
    | cons b bs => simp [charsLe] at h2
  | cons a as ih =>
    intro bs h1 h2
    cases bs with
    | nil => simp [charsLe] at h1
    | cons b bs =>
      by_cases hab : a = b
      · subst hab
        simp only [charsLe, if_pos rfl] at h1 h2
        exact congrArg (a :: ·) (ih bs h1 h2)
      · simp only [charsLe, if_neg hab, decide_eq_true_eq] at h1
        simp only [charsLe, if_neg (Ne.symm hab), decide_eq_true_eq] at h2
        exact absurd h2 (not_lt_of_lt h1)

theorem strLe_total (a b : String) : strLe a b = true ∨ strLe b a = true :=
  charsLe_total a.data b.data

theorem strLe_trans {a b c : String} (h1 : strLe a b = true)
    (h2 : strLe b c = true) : strLe a c = true :=
  charsLe_trans a.data b.data c.data h1 h2

theorem strLe_antisymm {a b : String} (h1 : strLe a b = true)
    (h2 : strLe b a = true) : a = b := by
  have h := charsLe_antisymm a.data b.data h1 h2
  cases a; cases b; exact congrArg String.mk h

/-! Correctness of the embedded sort. -/

theorem insertStr_perm (x : String) : ∀ l : List String,
    (insertStr x l).Perm (x :: l) := by
  intro l
  induction l with
  | nil => exact List.Perm.refl _
  | cons y ys ih =>
    by_cases h : strLe x y = true
    · simp [insertStr, h]
    · simp only [insertStr, if_neg h]
      exact ((ih.cons y).trans (List.Perm.swap x y ys)).symm.symm

theorem sortStrs_perm : ∀ l : List String, (sortStrs l).Perm l := by
  intro l
  induction l with
  | nil => exact List.Perm.refl _
  | cons x xs ih =>
    exact (insertStr_perm x (sortStrs xs)).trans (ih.cons x)

theorem mem_insertStr {x z : String} {l : List String} :
    z ∈ insertStr x l ↔ z = x ∨ z ∈ l := by
  rw [(insertStr_perm x l).mem_iff]
  simp

theorem insertStr_pairwise (x : String) {l : List String}
    (h : l.Pairwise (fun a b => strLe a b = true)) :
    (insertStr x l).Pairwise (fun a b => strLe a b = true) := by
  induction l with
  | nil => simp [insertStr]
  | cons y ys ih =>
    rcases List.pairwise_cons.1 h with ⟨hy, hys⟩
    by_cases hxy : strLe x y = true
    · simp only [insertStr, if_pos hxy]
      refine List.pairwise_cons.2 ⟨?_, h⟩
      intro z hz
      rcases List.mem_cons.1 hz with hz1 | hz1
      · exact hz1 ▸ hxy
      · exact strLe_trans hxy (hy z hz1)
    · have hyx : strLe y x = true := (strLe_total x y).resolve_left hxy
      simp only [insertStr, if_neg hxy]
      refine List.pairwise_cons.2 ⟨?_, ih hys⟩
      intro z hz
      rcases mem_insertStr.1 hz with hz1 | hz1
      · exact hz1 ▸ hyx
      · exact hy z hz1

theorem sortStrs_pairwise : ∀ l : List String,
    (sortStrs l).Pairwise (fun a b => strLe a b = true) := by
  intro l
  induction l with
  | nil => simp [sortStrs]
  | cons x xs ih => exact insertStr_pairwise x ih

theorem sortStrs_nodup {l : List String} (h : l.Nodup) :
    (sortStrs l).Nodup :=
  (sortStrs_perm l).symm.nodup h

theorem mem_sortStrs {z : String} {l : List String} :
    z ∈ sortStrs l ↔ z ∈ l :=
  (sortStrs_perm l).mem_iff

theorem sortedSet_pairwise (l : List String) :
    (sortedSet l).Pairwise (fun a b => strLe a b = true) :=
  sortStrs_pairwise l.dedup

theorem sortedSet_nodup (l : List String) : (sortedSet l).Nodup :=
  sortStrs_nodup l.nodup_dedup

theorem mem_sortedSet {z : String} {l : List String} :
    z ∈ sortedSet l ↔ z ∈ l := by
  rw [sortedSet, mem_sortStrs, List.mem_dedup]

/-! Lemmas about `getPackage` and the `finalize` tail of
`get_package_deps`. -/

theorem getPackage_shape (s : Store) (n : String) :
    (∃ p, getPackage s n = .ok p) ∨ getPackage s n = .notFound n := by
  unfold getPackage
  cases h : s.find? (fun p => p.name == n) with
  | none => right; rfl
  | some p => left; exact ⟨p, rfl⟩

theorem getPackage_ok_find {s : Store} {n : String} {p : PackageBase}
    (h : getPackage s n = .ok p) : s.find? (fun q => q.name == n) = some p := by
  unfold getPackage at h
  cases hf : s.find? (fun q => q.name == n) with
  | none => rw [hf] at h; exact absurd h (by simp)
  | some q => rw [hf] at h; cases h; rfl

theorem getPackage_ok_name {s : Store} {n : String} {p : PackageBase}
    (h : getPackage s n = .ok p) : p.name = n := by
  have := List.find?_some (getPackage_ok_find h)
  simpa using this

theorem getPackage_ok_mem {s : Store} {n : String} {p : PackageBase}
    (h : getPackage s n = .ok p) : p ∈ s :=
  List.mem_of_find?_eq_some (getPackage_ok_find h)

theorem getPackage_ok_iff {s : Store} {n : String} :
    (∃ p, getPackage s n = .ok p) ↔ n ∈ storeNames s := by
  constructor
  · rintro ⟨p, hp⟩
    exact List.mem_map.2 ⟨p, getPackage_ok_mem hp, getPackage_ok_name hp⟩
  · intro hn
    rcases List.mem_map.1 hn with ⟨p, hps, hpn⟩
    rcases getPackage_shape s n with h | h
    · exact h
    · unfold getPackage at h
      cases hf : s.find? (fun q => q.name == n) with
      | some q => rw [hf] at h; exact absurd h (by simp)
      | none =>
        have := List.find?_eq_none.1 hf p hps
        simp [hpn] at this

theorem getPackage_notFound_iff {s : Store} {n : String} :
    getPackage s n = .notFound n ↔ n ∉ storeNames s := by
  constructor
  · intro h hn
    rcases getPackage_ok_iff.2 hn with ⟨p, hp⟩
    rw [hp] at h
    exact absurd h (by simp)
  · intro hn
    rcases getPackage_shape s n with ⟨p, hp⟩ | h
    · exact absurd (getPackage_ok_iff.1 ⟨p, hp⟩) hn
    · exact h

theorem mapGet_ok_names {s : Store} :
    ∀ {ns : List String} {l : List PackageBase},
      mapGet s ns = .ok l → l.map PackageBase.name = ns := by
  intro ns
  induction ns with
  | nil => intro l h; cases h; rfl
  | cons n ns ih =>
    intro l h
    unfold mapGet at h
    cases hg : getPackage s n with
    | ok p =>
      rw [hg] at h
      cases hm : mapGet s ns with
      | ok l' =>
        rw [hm] at h
        cases h
        simp [ih hm, getPackage_ok_name hg]
      | notFound m => rw [hm] at h; exact absurd h (by simp)
      | err => rw [hm] at h; exact absurd h (by simp)
      | fuelOut => rw [hm] at h; exact absurd h (by simp)
    | notFound m => rw [hg] at h; exact absurd h (by simp)
    | err => rw [hg] at h; exact absurd h (by simp)
    | fuelOut => rw [hg] at h; exact absurd h (by simp)

theorem mapGet_ok_mem {s : Store} :
    ∀ {ns : List String} {l : List PackageBase} {x : String},
      mapGet s ns = .ok l → x ∈ ns → ∃ y, y ∈ l ∧ getPackage s x = .ok y := by
  intro ns
  induction ns with
  | nil => intro l x _ hx; exact absurd hx (by simp)
  | cons n ns ih =>
    intro l x h hx
    unfold mapGet at h
    cases hg : getPackage s n with
    | ok p =>
      rw [hg] at h
      cases hm : mapGet s ns with
      | ok l' =>
        rw [hm] at h
        cases h
        rcases List.mem_cons.1 hx with hx1 | hx1
        · exact ⟨p, by simp, hx1 ▸ hg⟩
        · rcases ih hm hx1 with ⟨y, hy, hgy⟩
          exact ⟨y, by simp [hy], hgy⟩
      | notFound m => rw [hm] at h; exact absurd h (by simp)
      | err => rw [hm] at h; exact absurd h (by simp)
      | fuelOut => rw [hm] at h; exact absurd h (by simp)
    | notFound m => rw [hg] at h; exact absurd h (by simp)
    | err => rw [hg] at h; exact absurd h (by simp)
    | fuelOut => rw [hg] at h; exact absurd h (by simp)

theorem mapGet_ne_fuelOut {s : Store} :
    ∀ ns : List String, mapGet s ns ≠ .fuelOut := by
  intro ns
  induction ns with
  | nil => simp [mapGet]
  | cons n ns ih =>
    unfold mapGet
    cases hg : getPackage s n with
    | ok p =>
      cases hm : mapGet s ns with
      | ok l => simp
      | notFound m => simp
      | err => simp
      | fuelOut => exact absurd hm ih
    | notFound m => simp
    | err => simp
    | fuelOut =>
      rcases getPackage_shape s n with ⟨q, hq⟩ | hq <;> rw [hq] at hg <;>
        exact absurd hg (by simp)

theorem mapGet_missing {s : Store} :
    ∀ {ns : List String}, (∃ x ∈ ns, x ∉ storeNames s) →
      ∃ m, mapGet s ns = .notFound m ∧ m ∉ storeNames s := by
  intro ns
  induction ns with
  | nil => rintro ⟨x, hx, _⟩; exact absurd hx (by simp)
  | cons n ns ih =>
    rintro ⟨x, hx, hxs⟩
    by_cases hn : n ∈ storeNames s
    · rcases getPackage_ok_iff.2 hn with ⟨p, hp⟩
      have hxns : x ∈ ns := by
        rcases List.mem_cons.1 hx with hx1 | hx1
        · exact absurd (hx1 ▸ hn) hxs
        · exact hx1
      rcases ih ⟨x, hxns, hxs⟩ with ⟨m, hm, hms⟩
      refine ⟨m, ?_, hms⟩
      unfold mapGet
      rw [hp, hm]
    · refine ⟨n, ?_, hn⟩
      unfold mapGet
      rw [getPackage_notFound_iff.2 hn]

theorem finalize_ok_names {s : Store} {acc : List String}
    {l : List PackageBase} (h : finalize s acc = .ok l) :
    l.map PackageBase.name = sortedSet acc :=
  mapGet_ok_names h

theorem finalize_ne_fuelOut (s : Store) (acc : List String) :
    finalize s acc ≠ .fuelOut :=
  mapGet_ne_fuelOut _

/-- Every list `get_package_deps` returns is produced by its final
`sorted(set(...))` + lookup step. -/
theorem getPackageDeps_ok_shape {s : Store} {fuel : Nat}
    {t : PackageBase ⊕ String} {r : Bool} {l : List PackageBase}
    (h : getPackageDeps s fuel t r = .ok l) :
    ∃ acc, finalize s acc = .ok l := by
  cases fuel with
  | zero => exact absurd h (by simp [getPackageDeps, gpdF])
  | succ f =>
    simp only [getPackageDeps, gpdF] at h
    split at h <;> try exact absurd h (by simp)
    split at h <;> try exact absurd h (by simp)
    split at h
    · split at h <;> try exact absurd h (by simp)
      exact ⟨_, h⟩
    · exact ⟨_, h⟩

/-! Lemmas about the visited-set DFS of `_list_metapackage_deps`. -/

theorem dfsListAux_mono
    {f : List String → List PackageBase → String →
      PRes (List String × List PackageBase)}
    (hf : ∀ v d n v' d', f v d n = .ok (v', d') → v ⊆ v' ∧ d ⊆ d') :
    ∀ (names : List String) (v : List String) (d : List PackageBase) v' d',
      dfsListAux f v d names = .ok (v', d') → v ⊆ v' ∧ d ⊆ d' := by
  intro names
  induction names with
  | nil =>
    intro v d v' d' h
    simp only [dfsListAux, PRes.ok.injEq, Prod.mk.injEq] at h
    obtain ⟨h1, h2⟩ := h
    subst h1; subst h2
    exact ⟨List.Subset.refl _, List.Subset.refl _⟩
  | cons n ns ih =>
    intro v d v' d' h
    unfold dfsListAux at h
    split at h <;> try exact absurd h (by simp)
    rename_i v2 d2 heq
    obtain ⟨h1, h2⟩ := hf v d n v2 d2 heq
    obtain ⟨h3, h4⟩ := ih v2 d2 v' d' h
    exact ⟨List.Subset.trans h1 h3, List.Subset.trans h2 h4⟩

theorem dfs_mono (s : Store) :
    ∀ (fuel : Nat) (v : List String) (d : List PackageBase) (n : String) v' d',
      dfs s fuel v d n = .ok (v', d') → v ⊆ v' ∧ d ⊆ d' := by
  intro fuel
  induction fuel with
  | zero => intro v d n v' d' h; exact absurd h (by simp [dfs])
  | succ f ih =>
    intro v d n v' d' h
    simp only [dfs] at h
    split at h
    · simp only [PRes.ok.injEq, Prod.mk.injEq] at h
      obtain ⟨h1, h2⟩ := h
      subst h1; subst h2
      exact ⟨List.Subset.refl _, List.Subset.refl _⟩
    · split at h <;> try exact absurd h (by simp)
      rename_i q heq
      obtain ⟨h1, h2⟩ := dfsListAux_mono ih q.deps (v ++ [n])
        (d ++ [PackageBase.pkg q]) v' d' h
      exact ⟨List.Subset.trans (List.subset_append_left v [n]) h1,
        List.Subset.trans (List.subset_append_left d [PackageBase.pkg q]) h2⟩

/-- A successful DFS started at name `c` has recorded `c`'s own package
in its `depslist` (`depslist.append(p)` runs before the recursion). -/
theorem dfs_start_mem {s : Store} {fuel : Nat} {c : String}
    {v' : List String} {d' : List PackageBase}
    (h : dfs s fuel [] [] c = .ok (v', d')) :
    ∃ q : Package, getPackage s c = .ok (.pkg q) ∧ PackageBase.pkg q ∈ d' := by
  cases fuel with
  | zero => exact absurd h (by simp [dfs])
  | succ f =>
    simp only [dfs] at h
    rw [if_neg (by simp)] at h
    split at h <;> try exact PRes.noConfusion h
    rename_i q heq
    refine ⟨q, ?_, ?_⟩
    · unfold getPackage
      rw [heq]
    · have hsub :
          (([] ++ [PackageBase.pkg q] : List PackageBase)) ⊆ d' :=
        (dfsListAux_mono (dfs_mono s f) q.deps ([] ++ [c]) _ v' d' h).2
      exact hsub (by simp)

theorem unvisited_mono {s : Store} {v w : List String} (hvw : v ⊆ w) :
    unvisited s w ⊆ unvisited s v := by
  intro x hx
  simp only [unvisited, Finset.mem_filter] at hx ⊢
  exact ⟨hx.1, fun hv => hx.2 (hvw hv)⟩

theorem unvisited_card_lt {s : Store} {v : List String} {n : String}
    (hn : n ∈ storeNames s) (hnv : n ∉ v) :
    (unvisited s (v ++ [n])).card < (unvisited s v).card := by
  have hsub : unvisited s (v ++ [n]) ⊆ unvisited s v :=
    unvisited_mono (List.subset_append_left v [n])
  refine Finset.card_lt_card ((Finset.ssubset_iff_of_subset hsub).2 ⟨n, ?_, ?_⟩)
  · simp [unvisited, Finset.mem_filter, List.mem_toFinset, hn, hnv]
  · simp [unvisited, Finset.mem_filter]

theorem dfsListAux_ne_fuelOut {s : Store} {f : Nat}
    (hdfs : ∀ v d n, (unvisited s v).card < f → dfs s f v d n ≠ .fuelOut) :
    ∀ (names : List String) (v : List String) (d : List PackageBase),
      (unvisited s v).card < f → dfsListAux (dfs s f) v d names ≠ .fuelOut := by
  intro names
  induction names with
  | nil => intro v d _; simp [dfsListAux]
  | cons n ns ih =>
    intro v d hcard hcon
    unfold dfsListAux at hcon
    split at hcon <;> try simp at hcon
    · rename_i v2 d2 heq
      have hsub := (dfs_mono s f v d n v2 d2 heq).1
      have hle : (unvisited s v2).card ≤ (unvisited s v).card :=
        Finset.card_le_card (unvisited_mono hsub)
      exact ih v2 d2 (lt_of_le_of_lt hle hcard) hcon
    · rename_i heq
      exact hdfs v d n hcard heq

/-- The visited-set guard bounds the DFS recursion depth by the number
of registered names: with more fuel than unvisited names, the walk
cannot run out of fuel — for every registry, cyclic or not. -/
theorem dfs_ne_fuelOut (s : Store) :
    ∀ (fuel : Nat) (v : List String) (d : List PackageBase) (n : String),
      (unvisited s v).card < fuel → dfs s fuel v d n ≠ .fuelOut := by
  intro fuel
  induction fuel with
  | zero => intro v d n h; exact absurd h (Nat.not_lt_zero _)
  | succ f ih =>
    intro v d n hcard hcon
    simp only [dfs] at hcon
    split at hcon
    · simp at hcon
    · rename_i hnv
      split at hcon <;> try simp at hcon
      rename_i q heq
      have hmem : n ∈ storeNames s := by
        have h1 := List.find?_some heq
        have h2 := List.mem_of_find?_eq_some heq
        exact List.mem_map.2 ⟨_, h2, by simpa using h1⟩
      have hlt : (unvisited s (v ++ [n])).card < f := by
        have := unvisited_card_lt hmem hnv
        omega
      exact dfsListAux_ne_fuelOut ih q.deps (v ++ [n])
        (d ++ [PackageBase.pkg q]) hlt hcon

theorem metaDepsLoop_ne_fuelOut {s : Store} {fuel : Nat}
    (hcard : (unvisited s []).card < fuel) :
    ∀ cs : List String, metaDepsLoop s fuel cs ≠ .fuelOut := by
  intro cs
  induction cs with
  | nil => simp [metaDepsLoop]
  | cons c cs ih =>
    intro hcon
    unfold metaDepsLoop at hcon
    split at hcon <;> try simp at hcon
    · split at hcon <;> try simp at hcon
      rename_i heq
      exact ih heq
    · rename_i heq
      exact dfs_ne_fuelOut s fuel [] [] c hcard heq

theorem metaDepsLoop_ok_each {s : Store} {fuel : Nat} :
    ∀ {cs : List String} {d : List PackageBase},
      metaDepsLoop s fuel cs = .ok d → ∀ c ∈ cs,
        ∃ v' d', dfs s fuel [] [] c = .ok (v', d') ∧ d' ⊆ d := by
  intro cs
  induction cs with
  | nil => intro d _ c hc; exact absurd hc (by simp)
  | cons c0 cs ih =>
    intro d h c hc
    unfold metaDepsLoop at h
    split at h <;> try exact PRes.noConfusion h
    rename_i v1 d1 heq
    split at h <;> try exact PRes.noConfusion h
    rename_i rest heq2
    simp only [PRes.ok.injEq] at h
    subst h
    rcases List.mem_cons.1 hc with hc1 | hc1
    · exact ⟨v1, d1, hc1 ▸ heq, List.subset_append_left _ _⟩
    · rcases ih heq2 c hc1 with ⟨v2, d2, hdfs, hsub⟩
      exact ⟨v2, d2, hdfs, List.Subset.trans hsub (List.subset_append_right _ _)⟩

theorem listMetapackageDeps_ok {s : Store} {fuel : Nat} {mp : MetaPackage}
    {ds : List PackageBase} (h : listMetapackageDeps s fuel mp = .ok ds) :
    ∃ d0, metaDepsLoop s fuel mp.listPackages = .ok d0 ∧ ds = d0.dedup := by
  unfold listMetapackageDeps at h
  split at h <;> try exact PRes.noConfusion h
  rename_i d0 heq
  simp only [PRes.ok.injEq] at h
  exact ⟨d0, heq, h.symm⟩

theorem listMetapackageDeps_ne_fuelOut {s : Store} {fuel : Nat}
    {mp : MetaPackage} (hcard : (unvisited s []).card < fuel) :
    listMetapackageDeps s fuel mp ≠ .fuelOut := by
  intro hcon
  unfold listMetapackageDeps at hcon
  split at hcon <;> try simp at hcon
  rename_i heq
  exact metaDepsLoop_ne_fuelOut hcard _ heq

/-- C3: for every package or metapackage target whose resolution
returns a list (which under the claim's preconditions — all referenced
names registered, acyclic graph — it does), the returned packages carry
pairwise-distinct names listed in ascending Python string order, for
both the recursive and the non-recursive form. -/
theorem c3_deps_sorted_nodup {s : Store} {fuel : Nat}
    {t : PackageBase ⊕ String} {r : Bool} {l : List PackageBase}
    (h : getPackageDeps s fuel t r = .ok l) :
    (l.map PackageBase.name).Pairwise (fun a b => strLe a b = true) ∧
    (l.map PackageBase.name).Nodup := by
  obtain ⟨acc, hacc⟩ := getPackageDeps_ok_shape h
  rw [finalize_ok_names hacc]
  exact ⟨sortedSet_pairwise _, sortedSet_nodup _⟩

theorem c3_deps_sorted_nodup_witness :
    (([PackageBase.pkg pBase, PackageBase.pkg pCore].map
        PackageBase.name).Pairwise (fun a b => strLe a b = true)) ∧
    ([PackageBase.pkg pBase, PackageBase.pkg pCore].map
        PackageBase.name).Nodup :=
  @c3_deps_sorted_nodup demoStore 5 (.inr "app") true
    [PackageBase.pkg pBase, PackageBase.pkg pCore] rfl

/-- Reduction of `get_package_deps` on a metapackage instance with
`recursive=False`: resolve the metapackage dependency walk, then run
the `sorted(set(...))` + lookup tail on the collected names. -/
theorem getPackageDeps_meta_nonrec {s : Store} {f : Nat} {mp : MetaPackage} :
    getPackageDeps s (f + 1) (.inl (.meta mp)) false =
      match listMetapackageDeps s (f + 1) mp with
      | .ok ds => finalize s (ds.map PackageBase.name)
      | .notFound m => .notFound m
      | .err => .err
      | .fuelOut => .fuelOut := by
  cases hld : listMetapackageDeps s (f + 1) mp <;>
      (simp only [getPackageDeps, gpdF, resolveTarget, baseDeps]; rw [hld]) <;>
    try rfl

/-- C10: every constituent named in a metapackage's package list is
itself a member of the dependency list `get_package_deps` returns for
that metapackage (the DFS records each start package before walking its
dependencies). -/
theorem c10_meta_includes_constituents {s : Store} {fuel : Nat}
    {mp : MetaPackage} {l : List PackageBase} {c : String}
    (h : getPackageDeps s fuel (.inl (.meta mp)) false = .ok l)
    (hc : c ∈ mp.listPackages) :
    ∃ p, getPackage s c = .ok p ∧ p ∈ l := by
  cases fuel with
  | zero => exact absurd h (by simp [getPackageDeps, gpdF])
  | succ f =>
    rw [getPackageDeps_meta_nonrec] at h
    split at h <;> try exact PRes.noConfusion h
    rename_i ds hld
    obtain ⟨d0, hloop, hdedup⟩ := listMetapackageDeps_ok hld
    obtain ⟨v', d', hdfs, hsub⟩ := metaDepsLoop_ok_each hloop c hc
    obtain ⟨q, hq, hmem⟩ := dfs_start_mem hdfs
    have hname : (PackageBase.pkg q).name = c := getPackage_ok_name hq
    have hinds : PackageBase.pkg q ∈ ds := by
      rw [hdedup]
      exact List.mem_dedup.2 (hsub hmem)
    have hcn : c ∈ ds.map PackageBase.name := List.mem_map.2 ⟨_, hinds, hname⟩
    unfold finalize at h
    obtain ⟨y, hyl, hy⟩ := mapGet_ok_mem h (mem_sortedSet.2 hcn)
    exact ⟨y, hy, hyl⟩

theorem c10_meta_includes_constituents_witness :
    ∃ p, getPackage demoStore "app" = .ok p ∧
      p ∈ [PackageBase.pkg pApp, PackageBase.pkg pBase, PackageBase.pkg pCore] :=
  @c10_meta_includes_constituents demoStore 5 mpDemo
    [PackageBase.pkg pApp, PackageBase.pkg pBase, PackageBase.pkg pCore]
    "app" rfl (by decide)

/-! No-silent-skipping machinery: a successful resolution certifies
that every name it referenced was registered and its package collected. -/

theorem getPackage_det {s : Store} {n : String} {y y' : PackageBase}
    (h1 : getPackage s n = .ok y) (h2 : getPackage s n = .ok y') : y = y' := by
  rw [h1] at h2
  simp only [PRes.ok.injEq] at h2
  exact h2

theorem mapGet_elem_lookup {s : Store} :
    ∀ {ns : List String} {l : List PackageBase},
      mapGet s ns = .ok l → ∀ y ∈ l, getPackage s y.name = .ok y := by
  intro ns
  induction ns with
  | nil =>
    intro l h y hy
    simp only [mapGet, PRes.ok.injEq] at h
    subst h
    exact absurd hy (by simp)
  | cons n ns ih =>
    intro l h y hy
    unfold mapGet at h
    split at h <;> try exact PRes.noConfusion h
    rename_i p hp
    split at h <;> try exact PRes.noConfusion h
    rename_i l' hl'
    simp only [PRes.ok.injEq] at h
    subst h
    rcases List.mem_cons.1 hy with hy1 | hy1
    · subst hy1
      rw [getPackage_ok_name hp]
      exact hp
    · exact ih hl' y hy1

theorem getPackageDeps_elem_lookup {s : Store} {fuel : Nat}
    {t : PackageBase ⊕ String} {r : Bool} {l : List PackageBase}
    (h : getPackageDeps s fuel t r = .ok l) :
    ∀ y ∈ l, getPackage s y.name = .ok y := by
  obtain ⟨acc, hacc⟩ := getPackageDeps_ok_shape h
  exact mapGet_elem_lookup hacc

theorem getPackageDeps_name_mem {s : Store} {fuel : Nat}
    {t : PackageBase ⊕ String} {r : Bool} {l : List PackageBase}
    (h : getPackageDeps s fuel t r = .ok l) :
    ∀ d ∈ l.map PackageBase.name, ∃ y, y ∈ l ∧ getPackage s d = .ok y := by
  obtain ⟨acc, hacc⟩ := getPackageDeps_ok_shape h
  intro d hd
  rw [finalize_ok_names hacc] at hd
  exact mapGet_ok_mem hacc hd

/-- Structure of a successful `get_package_deps` run: the target
resolves, its base reference list resolves, and (for `recursive=True`)
the expansion loop completes before the final `sorted(set(...))`. -/
theorem gpd_succ_ok_shape {s : Store} {f : Nat} {t : PackageBase ⊕ String}
    {r : Bool} {l : List PackageBase}
    (h : getPackageDeps s (f + 1) t r = .ok l) :
    ∃ pb ret, resolveTarget s t = .ok pb ∧ baseDeps s (f + 1) pb = .ok ret ∧
      ((r = false ∧ finalize s ret = .ok l) ∨
       (r = true ∧ ∃ acc, (gpdF s f).2 ret ret = .ok acc ∧
          finalize s acc = .ok l)) := by
  simp only [getPackageDeps, gpdF] at h
  split at h <;> try exact PRes.noConfusion h
  rename_i pb hrt
  split at h <;> try exact PRes.noConfusion h
  rename_i ret hbd
  split at h
  · rename_i hr
    split at h <;> try exact PRes.noConfusion h
    rename_i acc hacc
    exact ⟨pb, ret, hrt, hbd, Or.inr ⟨hr, acc, hacc, h⟩⟩
  · rename_i hr
    exact ⟨pb, ret, hrt, hbd, Or.inl ⟨by simpa using hr, h⟩⟩

theorem recLoop_mono {s : Store} :
    ∀ (f : Nat) (acc work acc' : List String),
      (gpdF s f).2 acc work = .ok acc' → acc ⊆ acc' := by
  intro f
  induction f with
  | zero =>
    intro acc work acc' h
    cases work with
    | nil =>
      have h' : PRes.ok acc = PRes.ok acc' := h
      simp only [PRes.ok.injEq] at h'
      subst h'
      exact List.Subset.refl _
    | cons n rest =>
      have h' : (PRes.fuelOut : PRes (List String)) = .ok acc' := h
      exact PRes.noConfusion h'
  | succ f ih =>
    intro acc work acc' h
    cases work with
    | nil =>
      have h' : PRes.ok acc = PRes.ok acc' := h
      simp only [PRes.ok.injEq] at h'
      subst h'
      exact List.Subset.refl _
    | cons n rest =>
      have h' : (match (gpdF s f).1 (.inr n) true with
        | .ok ds => (gpdF s f).2 (acc ++ ds.map PackageBase.name)
            (rest ++ ds.map PackageBase.name)
        | .notFound m => .notFound m
        | .err => .err
        | .fuelOut => .fuelOut) = .ok acc' := h
      split at h' <;> try exact PRes.noConfusion h'
      rename_i ds hds
      exact (List.subset_append_left _ _).trans (ih _ _ _ h')

theorem listMetapackageDeps_constituents {s : Store} {fuel : Nat}
    {mp : MetaPackage} {ds : List PackageBase}
    (h : listMetapackageDeps s fuel mp = .ok ds) :
    ∀ c ∈ mp.listPackages, c ∈ ds.map PackageBase.name := by
  intro c hc
  obtain ⟨d0, hloop, hdedup⟩ := listMetapackageDeps_ok h
  obtain ⟨v', d', hdfs, hsub⟩ := metaDepsLoop_ok_each hloop c hc
  obtain ⟨q, hq, hmem⟩ := dfs_start_mem hdfs
  refine List.mem_map.2 ⟨PackageBase.pkg q, ?_, getPackage_ok_name hq⟩
  rw [hdedup]
  exact List.mem_dedup.2 (hsub hmem)

theorem baseDeps_refs {s : Store} {f : Nat} {pb : PackageBase}
    {ret : List String} (h : baseDeps s f pb = .ok ret) :
    ∀ d ∈ pb.refNames, d ∈ ret := by
  cases pb with
  | pkg q =>
    simp only [baseDeps, PRes.ok.injEq] at h
    subst h
    intro d hd
    exact hd
  | meta mp =>
    simp only [baseDeps] at h
    split at h <;> try exact PRes.noConfusion h
    rename_i ds hld
    simp only [PRes.ok.injEq] at h
    subst h
    intro d hd
    exact listMetapackageDeps_constituents hld d hd

/-- Every name the resolved target directly references (dependency of a
plain package, constituent of a metapackage) ends up among the names of
the returned list, in both modes. -/
theorem gpd_base_refs {s : Store} {fuel : Nat} {t : PackageBase ⊕ String}
    {r : Bool} {l : List PackageBase} {pb : PackageBase}
    (h : getPackageDeps s fuel t r = .ok l)
    (hrt : resolveTarget s t = .ok pb) :
    ∀ d ∈ pb.refNames, d ∈ l.map PackageBase.name := by
  intro d hd
  cases fuel with
  | zero => exact absurd h (by simp [getPackageDeps, gpdF])
  | succ f =>
    obtain ⟨pb', ret, hrt', hbd, hrest⟩ := gpd_succ_ok_shape h
    have hpb : pb' = pb := by
      rw [hrt] at hrt'
      simpa using hrt'.symm
    subst hpb
    have hdret : d ∈ ret := baseDeps_refs hbd d hd
    rcases hrest with ⟨_, hfin⟩ | ⟨_, acc, hloop, hfin⟩
    · rw [finalize_ok_names hfin]
      exact mem_sortedSet.2 hdret
    · rw [finalize_ok_names hfin]
      exact mem_sortedSet.2 (recLoop_mono f ret ret acc hloop hdret)

/-- Soundness of the `recursive=True` expansion loop: it only finishes
after it has successfully resolved every worklist name — so every name
in the final accumulator is registered and its direct references are in
the accumulator too. -/
theorem recLoop_all {s : Store} :
    ∀ (f : Nat) (acc work acc' : List String),
      (gpdF s f).2 acc work = .ok acc' →
      acc ⊆ acc' ∧
      (∀ n ∈ work, ∃ pb, getPackage s n = .ok pb ∧
        ∀ d ∈ PackageBase.refNames pb, d ∈ acc') ∧
      (∀ n ∈ acc', n ∈ acc ∨ ∃ pb, getPackage s n = .ok pb ∧
        ∀ d ∈ PackageBase.refNames pb, d ∈ acc') := by
  intro f
  induction f with
  | zero =>
    intro acc work acc' h
    cases work with
    | nil =>
      have h' : PRes.ok acc = PRes.ok acc' := h
      simp only [PRes.ok.injEq] at h'
      subst h'
      exact ⟨List.Subset.refl _, by simp, fun n hn => Or.inl hn⟩
    | cons n rest =>
      have h' : (PRes.fuelOut : PRes (List String)) = .ok acc' := h
      exact PRes.noConfusion h'
  | succ f ih =>
    intro acc work acc' h
    cases work with
    | nil =>
      have h' : PRes.ok acc = PRes.ok acc' := h
      simp only [PRes.ok.injEq] at h'
      subst h'
      exact ⟨List.Subset.refl _, by simp, fun n hn => Or.inl hn⟩
    | cons n rest =>
      have h' : (match (gpdF s f).1 (.inr n) true with
        | .ok ds => (gpdF s f).2 (acc ++ ds.map PackageBase.name)
            (rest ++ ds.map PackageBase.name)
        | .notFound m => .notFound m
        | .err => .err
        | .fuelOut => .fuelOut) = .ok acc' := h
      split at h' <;> try exact PRes.noConfusion h'
      rename_i ds hds
      obtain ⟨hmono, hwork, hall⟩ := ih _ _ _ h'
      have hds' : getPackageDeps s f (.inr n) true = .ok ds := hds
      have hres : ∃ pb, getPackage s n = .ok pb := by
        cases f with
        | zero => exact absurd hds' (by simp [getPackageDeps, gpdF])
        | succ f' =>
          obtain ⟨pb, ret, hrt, _, _⟩ := gpd_succ_ok_shape hds'
          exact ⟨pb, hrt⟩
      obtain ⟨pb, hpb⟩ := hres
      have hrefs : ∀ d ∈ PackageBase.refNames pb, d ∈ ds.map PackageBase.name :=
        gpd_base_refs hds' hpb
      have hsubacc : ∀ d ∈ ds.map PackageBase.name, d ∈ acc' :=
        fun d hd => hmono (List.mem_append_right acc hd)
      refine ⟨(List.subset_append_left _ _).trans hmono, ?_, ?_⟩
      · intro m hm
        rcases List.mem_cons.1 hm with hm1 | hm1
        · subst hm1
          exact ⟨pb, hpb, fun d hd => hsubacc d (hrefs d hd)⟩
        · exact hwork m (List.mem_append_left _ hm1)
      · intro m hm
        rcases hall m hm with hm1 | hm1
        · rcases List.mem_append.1 hm1 with hm2 | hm2
          · exact Or.inl hm2
          · exact Or.inr (hwork m (List.mem_append_right _ hm2))
        · exact Or.inr hm1

theorem dfs_adds {s : Store} {fuel : Nat} {v : List String}
    {d : List PackageBase} {n : String} {v' : List String}
    {d' : List PackageBase} (h : dfs s fuel v d n = .ok (v', d')) :
    n ∈ v' := by
  cases fuel with
  | zero => exact absurd h (by simp [dfs])
  | succ f =>
    simp only [dfs] at h
    split at h
    · rename_i hin
      simp only [PRes.ok.injEq, Prod.mk.injEq] at h
      obtain ⟨h1, _⟩ := h
      subst h1
      exact hin
    · split at h <;> try exact PRes.noConfusion h
      rename_i q heq
      have hsub := (dfsListAux_mono (dfs_mono s f) q.deps (v ++ [n])
        (d ++ [PackageBase.pkg q]) v' d' h).1
      exact hsub (by simp)

/-- Soundness of the visited-set walk: every package it collects was
looked up under its own name, and all of that package's dependency
names were fed back into the walk (hence visited). -/
theorem dfsListAux_walk_sound {s : Store} {f : Nat}
    (hdfs : ∀ v d n v' d', dfs s f v d n = .ok (v', d') →
      ∀ pb ∈ d', pb ∈ d ∨ (getPackage s pb.name = .ok pb ∧
        ∀ x ∈ PackageBase.refNames pb, x ∈ v')) :
    ∀ (names : List String) (v : List String) (d : List PackageBase)
      (v' : List String) (d' : List PackageBase),
      dfsListAux (dfs s f) v d names = .ok (v', d') →
      (∀ x ∈ names, x ∈ v') ∧
      (∀ pb ∈ d', pb ∈ d ∨ (getPackage s pb.name = .ok pb ∧
        ∀ x ∈ PackageBase.refNames pb, x ∈ v')) := by
  intro names
  induction names with
  | nil =>
    intro v d v' d' h
    simp only [dfsListAux, PRes.ok.injEq, Prod.mk.injEq] at h
    obtain ⟨h1, h2⟩ := h
    subst h1; subst h2
    exact ⟨by simp, fun pb hpb => Or.inl hpb⟩
  | cons x xs ih =>
    intro v d v' d' h
    unfold dfsListAux at h
    split at h <;> try exact PRes.noConfusion h
    rename_i v1 d1 heq
    obtain ⟨hxs, hmem⟩ := ih v1 d1 v' d' h
    have hv1 : v1 ⊆ v' := (dfsListAux_mono (dfs_mono s f) xs v1 d1 v' d' h).1
    refine ⟨?_, ?_⟩
    · intro y hy
      rcases List.mem_cons.1 hy with hy1 | hy1
      · subst hy1
        exact hv1 (dfs_adds heq)
      · exact hxs y hy1
    · intro pb hpb
      rcases hmem pb hpb with hpb1 | hpb1
      · rcases hdfs v d x v1 d1 heq pb hpb1 with hpb2 | ⟨hlk, hrefs⟩
        · exact Or.inl hpb2
        · exact Or.inr ⟨hlk, fun z hz => hv1 (hrefs z hz)⟩
      · exact Or.inr hpb1

theorem dfs_walk_sound {s : Store} :
    ∀ (fuel : Nat) (v : List String) (d : List PackageBase) (n : String)
      (v' : List String) (d' : List PackageBase),
      dfs s fuel v d n = .ok (v', d') →
      ∀ pb ∈ d', pb ∈ d ∨
        (getPackage s pb.name = .ok pb ∧
         ∀ x ∈ PackageBase.refNames pb, x ∈ v') := by
  intro fuel
  induction fuel with
  | zero => intro v d n v' d' h; exact absurd h (by simp [dfs])
  | succ f ih =>
    intro v d n v' d' h pb hpb
    simp only [dfs] at h
    split at h
    · simp only [PRes.ok.injEq, Prod.mk.injEq] at h
      obtain ⟨h1, h2⟩ := h
      subst h1; subst h2
      exact Or.inl hpb
    · split at h <;> try exact PRes.noConfusion h
      rename_i q heq
      obtain ⟨hdeps, hmem⟩ := dfsListAux_walk_sound ih q.deps (v ++ [n])
        (d ++ [PackageBase.pkg q]) v' d' h
      rcases hmem pb hpb with hpb1 | hpb1
      · rcases List.mem_append.1 hpb1 with hpb2 | hpb2
        · exact Or.inl hpb2
        · simp only [List.mem_singleton] at hpb2
          subst hpb2
          refine Or.inr ⟨?_, ?_⟩
          · have hqn : (PackageBase.pkg q).name = n := by
              simpa using List.find?_some heq
            unfold getPackage
            rw [hqn, heq]
          · intro z hz
            exact hdeps z hz
      · exact Or.inr hpb1

/-- The DFS keeps `visited` and `depslist` in lockstep: a name enters
`visited` exactly when its package enters `depslist`. -/
theorem dfsListAux_visited_names {s : Store} {f : Nat}
    (hdfs : ∀ v d n v' d', dfs s f v d n = .ok (v', d') →
      d.map PackageBase.name = v → d'.map PackageBase.name = v') :
    ∀ (names : List String) (v : List String) (d : List PackageBase)
      (v' : List String) (d' : List PackageBase),
      dfsListAux (dfs s f) v d names = .ok (v', d') →
      d.map PackageBase.name = v → d'.map PackageBase.name = v' := by
  intro names
  induction names with
  | nil =>
    intro v d v' d' h hvd
    simp only [dfsListAux, PRes.ok.injEq, Prod.mk.injEq] at h
    obtain ⟨h1, h2⟩ := h
    subst h1; subst h2
    exact hvd
  | cons x xs ih =>
    intro v d v' d' h hvd
    unfold dfsListAux at h
    split at h <;> try exact PRes.noConfusion h
    rename_i v1 d1 heq
    exact ih v1 d1 v' d' h (hdfs v d x v1 d1 heq hvd)

theorem dfs_visited_names {s : Store} :
    ∀ (fuel : Nat) (v : List String) (d : List PackageBase) (n : String)
      (v' : List String) (d' : List PackageBase),
      dfs s fuel v d n = .ok (v', d') →
      d.map PackageBase.name = v → d'.map PackageBase.name = v' := by
  intro fuel
  induction fuel with
  | zero => intro v d n v' d' h _; exact absurd h (by simp [dfs])
  | succ f ih =>
    intro v d n v' d' h hvd
    simp only [dfs] at h
    split at h
    · simp only [PRes.ok.injEq, Prod.mk.injEq] at h
      obtain ⟨h1, h2⟩ := h
      subst h1; subst h2
      exact hvd
    · split at h <;> try exact PRes.noConfusion h
      rename_i q heq
      have hqn : (PackageBase.pkg q).name = n := by
        simpa using List.find?_some heq
      refine dfsListAux_visited_names ih q.deps (v ++ [n])
        (d ++ [PackageBase.pkg q]) v' d' h ?_
      rw [List.map_append, hvd]
      simp [hqn]

theorem metaDepsLoop_ok_members {s : Store} {fuel : Nat} :
    ∀ {cs : List String} {d0 : List PackageBase},
      metaDepsLoop s fuel cs = .ok d0 → ∀ pb ∈ d0,
        ∃ c v' d', c ∈ cs ∧ dfs s fuel [] [] c = .ok (v', d') ∧
          pb ∈ d' ∧ d' ⊆ d0 := by
  intro cs
  induction cs with
  | nil =>
    intro d0 h pb hpb
    simp only [metaDepsLoop, PRes.ok.injEq] at h
    subst h
    exact absurd hpb (by simp)
  | cons c0 cs ih =>
    intro d0 h pb hpb
    unfold metaDepsLoop at h
    split at h <;> try exact PRes.noConfusion h
    rename_i v1 d1 heq
    split at h <;> try exact PRes.noConfusion h
    rename_i rest heq2
    simp only [PRes.ok.injEq] at h
    subst h
    rcases List.mem_append.1 hpb with hpb1 | hpb1
    · exact ⟨c0, v1, d1, by simp, heq, hpb1, List.subset_append_left _ _⟩
    · obtain ⟨c, v', d', hc, hdfs, hpd, hsub⟩ := ih heq2 pb hpb1
      exact ⟨c, v', d', by simp [hc], hdfs,
        hpd, hsub.trans (List.subset_append_right _ _)⟩

/-- C5: `get_package` succeeds exactly on registered names and raises
`PackageNotFoundError` exactly on unregistered ones, and dependency
resolution never silently skips a missing referenced name, in any mode:
(i)/(ii) the lookup dichotomy; (iii) whenever `get_package_deps`
returns a list, every name the resolved target directly references (a
plain package's `deps` entry, a metapackage's constituent) was looked
up successfully and its package is in the result, for both recursive
modes; (iv) with `recursive=True`, every package in the returned list
has all of its referenced names resolved into that same list — so
every name encountered anywhere in the expansion loop, however deep,
was resolved; (v) for a metapackage with `recursive=False` the same
closure holds of the returned list — so every name encountered
anywhere in the DFS walk, later constituents and deep dependencies
included, was resolved; (vi)/(vii) consequently a plain package with
any absent dependency name, and a metapackage with any absent
constituent name, can never resolve to a list in either mode; (viii) a
plain package with an absent direct dependency resolves to `notFound`
of a missing name, and (ix) a metapackage whose first constituent is
absent resolves to `notFound` of that constituent. -/
theorem c5_notFound_propagation :
    (∀ (s : Store) (n : String),
      (∃ p, getPackage s n = .ok p) ↔ n ∈ storeNames s) ∧
    (∀ (s : Store) (n : String),
      getPackage s n = .notFound n ↔ n ∉ storeNames s) ∧
    (∀ (s : Store) (fuel : Nat) (t : PackageBase ⊕ String) (r : Bool)
      (l : List PackageBase) (pb : PackageBase),
      getPackageDeps s fuel t r = .ok l → resolveTarget s t = .ok pb →
      ∀ d ∈ pb.refNames, ∃ y, getPackage s d = .ok y ∧ y ∈ l) ∧
    (∀ (s : Store) (fuel : Nat) (t : PackageBase ⊕ String)
      (l : List PackageBase),
      getPackageDeps s fuel t true = .ok l →
      ∀ pb ∈ l, ∀ d ∈ pb.refNames, ∃ y, getPackage s d = .ok y ∧ y ∈ l) ∧
    (∀ (s : Store) (fuel : Nat) (mp : MetaPackage) (l : List PackageBase),
      getPackageDeps s fuel (.inl (.meta mp)) false = .ok l →
      ∀ pb ∈ l, ∀ d ∈ pb.refNames, ∃ y, getPackage s d = .ok y ∧ y ∈ l) ∧
    (∀ (s : Store) (fuel : Nat) (p : Package) (r : Bool),
      (∃ d ∈ p.deps, d ∉ storeNames s) →
      ∀ l, getPackageDeps s fuel (.inl (.pkg p)) r ≠ .ok l) ∧
    (∀ (s : Store) (fuel : Nat) (mp : MetaPackage) (r : Bool),
      (∃ c ∈ mp.listPackages, c ∉ storeNames s) →
      ∀ l, getPackageDeps s fuel (.inl (.meta mp)) r ≠ .ok l) ∧
    (∀ (s : Store) (fuel : Nat) (p : Package),
      (∃ d ∈ p.deps, d ∉ storeNames s) →
      ∃ m, getPackageDeps s (fuel + 1) (.inl (.pkg p)) false = .notFound m ∧
        m ∉ storeNames s) ∧
    (∀ (s : Store) (fuel : Nat) (mp : MetaPackage) (c : String)
      (cs : List String), mp.listPackages = c :: cs → c ∉ storeNames s →
      getPackageDeps s (fuel + 1) (.inl (.meta mp)) false = .notFound c) := by
  have part3 : ∀ (s : Store) (fuel : Nat) (t : PackageBase ⊕ String)
      (r : Bool) (l : List PackageBase) (pb : PackageBase),
      getPackageDeps s fuel t r = .ok l → resolveTarget s t = .ok pb →
      ∀ d ∈ pb.refNames, ∃ y, getPackage s d = .ok y ∧ y ∈ l := by
    intro s fuel t r l pb h hrt d hd
    have hnames : d ∈ l.map PackageBase.name := gpd_base_refs h hrt d hd
    obtain ⟨y, hyl, hy⟩ := getPackageDeps_name_mem h d hnames
    exact ⟨y, hy, hyl⟩
  have part4 : ∀ (s : Store) (fuel : Nat) (t : PackageBase ⊕ String)
      (l : List PackageBase),
      getPackageDeps s fuel t true = .ok l →
      ∀ pb ∈ l, ∀ d ∈ pb.refNames, ∃ y, getPackage s d = .ok y ∧ y ∈ l := by
    intro s fuel t l h pb hpb d hd
    cases fuel with
    | zero => exact absurd h (by simp [getPackageDeps, gpdF])
    | succ f =>
      obtain ⟨tpb, ret, hrt, hbd, hrest⟩ := gpd_succ_ok_shape h
      rcases hrest with ⟨hrf, _⟩ | ⟨_, acc, hloop, hfin⟩
      · exact absurd hrf (by simp)
      · obtain ⟨hmono, hwork, hall⟩ := recLoop_all f ret ret acc hloop
        have hpbn : pb.name ∈ l.map PackageBase.name :=
          List.mem_map.2 ⟨pb, hpb, rfl⟩
        rw [finalize_ok_names hfin] at hpbn
        have hpbacc : pb.name ∈ acc := mem_sortedSet.1 hpbn
        have hexp : ∃ pb', getPackage s pb.name = .ok pb' ∧
            ∀ x ∈ PackageBase.refNames pb', x ∈ acc := by
          rcases hall pb.name hpbacc with hin | hexp
          · exact hwork pb.name hin
          · exact hexp
        obtain ⟨pb', hpb', hrefs'⟩ := hexp
        have hlk : getPackage s pb.name = .ok pb :=
          getPackageDeps_elem_lookup h pb hpb
        have heq : pb' = pb := getPackage_det hpb' hlk
        subst heq
        have hdl : d ∈ l.map PackageBase.name := by
          rw [finalize_ok_names hfin]
          exact mem_sortedSet.2 (hrefs' d hd)
        obtain ⟨y, hyl, hy⟩ := getPackageDeps_name_mem h d hdl
        exact ⟨y, hy, hyl⟩
  have part5 : ∀ (s : Store) (fuel : Nat) (mp : MetaPackage)
      (l : List PackageBase),
      getPackageDeps s fuel (.inl (.meta mp)) false = .ok l →
      ∀ pb ∈ l, ∀ d ∈ pb.refNames, ∃ y, getPackage s d = .ok y ∧ y ∈ l := by
    intro s fuel mp l h pb hpb d hd
    cases fuel with
    | zero => exact absurd h (by simp [getPackageDeps, gpdF])
    | succ f =>
      rw [getPackageDeps_meta_nonrec] at h
      split at h <;> try exact PRes.noConfusion h
      rename_i ds hld
      obtain ⟨d0, hloop, hdedup⟩ := listMetapackageDeps_ok hld
      have hlk : getPackage s pb.name = .ok pb := mapGet_elem_lookup h pb hpb
      have hpbn : pb.name ∈ ds.map PackageBase.name := by
        have hm : pb.name ∈ l.map PackageBase.name :=
          List.mem_map.2 ⟨pb, hpb, rfl⟩
        rw [finalize_ok_names h] at hm
        exact mem_sortedSet.1 hm
      obtain ⟨pb0, hpb0ds, hpb0n⟩ := List.mem_map.1 hpbn
      have hpb0d0 : pb0 ∈ d0 := by
        rw [hdedup] at hpb0ds
        exact List.mem_dedup.1 hpb0ds
      obtain ⟨c, v', d', hc, hdfs, hpd, hsub⟩ :=
        metaDepsLoop_ok_members hloop pb0 hpb0d0
      rcases dfs_walk_sound (f + 1) [] [] c v' d' hdfs pb0 hpd with
        hempty | ⟨hlk0, hrefs0⟩
      · exact absurd hempty (by simp)
      · rw [hpb0n] at hlk0
        have heq : pb0 = pb := getPackage_det hlk0 hlk
        subst heq
        have hvn : d'.map PackageBase.name = v' :=
          dfs_visited_names (f + 1) [] [] c v' d' hdfs rfl
        have hdv : d ∈ v' := hrefs0 d hd
        rw [← hvn] at hdv
        obtain ⟨pbd, hpbd, hpbdn⟩ := List.mem_map.1 hdv
        have hpbdds : pbd ∈ ds := by
          rw [hdedup]
          exact List.mem_dedup.2 (hsub hpbd)
        have hdss : d ∈ sortedSet (ds.map PackageBase.name) :=
          mem_sortedSet.2 (List.mem_map.2 ⟨pbd, hpbdds, hpbdn⟩)
        obtain ⟨y, hyl, hy⟩ := mapGet_ok_mem h hdss
        exact ⟨y, hy, hyl⟩
  have part6 : ∀ (s : Store) (fuel : Nat) (p : Package) (r : Bool),
      (∃ d ∈ p.deps, d ∉ storeNames s) →
      ∀ l, getPackageDeps s fuel (.inl (.pkg p)) r ≠ .ok l := by
    intro s fuel p r hmiss l hok
    obtain ⟨d, hd, hds⟩ := hmiss
    obtain ⟨y, hy, _⟩ := part3 s fuel (.inl (.pkg p)) r l (.pkg p) hok rfl d hd
    exact hds (getPackage_ok_iff.1 ⟨y, hy⟩)
  have part7 : ∀ (s : Store) (fuel : Nat) (mp : MetaPackage) (r : Bool),
      (∃ c ∈ mp.listPackages, c ∉ storeNames s) →
      ∀ l, getPackageDeps s fuel (.inl (.meta mp)) r ≠ .ok l := by
    intro s fuel mp r hmiss l hok
    obtain ⟨c, hc, hcs⟩ := hmiss
    obtain ⟨y, hy, _⟩ :=
      part3 s fuel (.inl (.meta mp)) r l (.meta mp) hok rfl c hc
    exact hcs (getPackage_ok_iff.1 ⟨y, hy⟩)
  have part8 : ∀ (s : Store) (fuel : Nat) (p : Package),
      (∃ d ∈ p.deps, d ∉ storeNames s) →
      ∃ m, getPackageDeps s (fuel + 1) (.inl (.pkg p)) false = .notFound m ∧
        m ∉ storeNames s := by
    intro s fuel p hmiss
    have e : getPackageDeps s (fuel + 1) (.inl (.pkg p)) false
        = finalize s p.deps := rfl
    rw [e]
    unfold finalize
    apply mapGet_missing
    obtain ⟨d, hd, hds⟩ := hmiss
    exact ⟨d, mem_sortedSet.2 hd, hds⟩
  have part9 : ∀ (s : Store) (fuel : Nat) (mp : MetaPackage) (c : String)
      (cs : List String), mp.listPackages = c :: cs → c ∉ storeNames s →
      getPackageDeps s (fuel + 1) (.inl (.meta mp)) false = .notFound c := by
    intro s fuel mp c cs hlist hc
    have hfind : s.find? (fun q => q.name == c) = none := by
      refine List.find?_eq_none.2 (fun x hx => ?_)
      simp only [beq_iff_eq]
      intro hxc
      exact hc (List.mem_map.2 ⟨x, hx, hxc⟩)
    have hdfs : dfs s (fuel + 1) [] [] c = .notFound c := by
      simp only [dfs]
      rw [if_neg (by simp), hfind]
    have hloop : metaDepsLoop s (fuel + 1) mp.listPackages = .notFound c := by
      rw [hlist]
      unfold metaDepsLoop
      rw [hdfs]
    have hld : listMetapackageDeps s (fuel + 1) mp = .notFound c := by
      unfold listMetapackageDeps
      rw [hloop]
    rw [getPackageDeps_meta_nonrec, hld]
  exact ⟨fun s n => getPackage_ok_iff, fun s n => getPackage_notFound_iff,
    part3, part4, part5, part6, part7, part8, part9⟩

theorem c5_notFound_propagation_witness :
    (∃ m, getPackageDeps ghostStore 3 (.inl (.pkg ghostPkg)) false
        = .notFound m ∧ m ∉ storeNames ghostStore) ∧
    getPackageDeps ghostStore 3 (.inl (.meta mpGhost)) true ≠ .ok [] :=
  ⟨c5_notFound_propagation.2.2.2.2.2.2.2.1 ghostStore 2 ghostPkg
      ⟨"ghost", by decide, by decide⟩,
   c5_notFound_propagation.2.2.2.2.2.2.1 ghostStore 3 mpGhost true
      ⟨"ghost", by decide, by decide⟩ []⟩

/-- C2 (amended): for a MetaPackage with `recursive=False` the
visited-set DFS guard makes dependency resolution terminate on every
registry, dependency cycles and repeated mentions included: any fuel
beyond the number of registered names is never exhausted.  (The claim's
guarantee fails for `recursive=True`, where the expansion loop has no
guard: see the counterexample.) -/
theorem c2_meta_nonrecursive_terminates {s : Store} {fuel : Nat}
    {mp : MetaPackage} (h : ((storeNames s).toFinset).card < fuel) :
    getPackageDeps s fuel (.inl (.meta mp)) false ≠ .fuelOut := by
  cases fuel with
  | zero => exact absurd h (Nat.not_lt_zero _)
  | succ f =>
    intro hcon
    rw [getPackageDeps_meta_nonrec] at hcon
    split at hcon <;> try exact PRes.noConfusion hcon
    · rename_i ds hld
      exact finalize_ne_fuelOut s (ds.map PackageBase.name) hcon
    · rename_i hld
      have hcard : (unvisited s []).card < f + 1 := by
        simpa [unvisited] using h
      exact listMetapackageDeps_ne_fuelOut hcard hld

theorem c2_meta_nonrecursive_terminates_witness :
    getPackageDeps cycStore 4 (.inl (.meta mpCyc)) false ≠ .fuelOut :=
  @c2_meta_nonrecursive_terminates cycStore 4 mpCyc (by decide)

/-- Divergence of the unguarded recursive expansion on the cycle
`A -> B -> A`: every fuel bound is exhausted, on both entry points. -/
theorem cyc_diverges : ∀ n : Nat,
    getPackageDeps cycStore n (.inr "A") true = .fuelOut ∧
    getPackageDeps cycStore n (.inr "B") true = .fuelOut := by
  intro n
  induction n using Nat.strong_induction_on with
  | _ n ih =>
    match n with
    | 0 => exact ⟨rfl, rfl⟩
    | 1 => exact ⟨rfl, rfl⟩
    | g + 2 =>
      obtain ⟨ihA, ihB⟩ := ih g (by omega)
      have ihA' : (gpdF cycStore g).1 (.inr "A") true = .fuelOut := ihA
      have ihB' : (gpdF cycStore g).1 (.inr "B") true = .fuelOut := ihB
      constructor
      · have e1 : getPackageDeps cycStore (g + 2) (.inr "A") true =
            (match (gpdF cycStore (g + 1)).2 ["B"] ["B"] with
             | .ok acc => finalize cycStore acc
             | .notFound m => .notFound m
             | .err => .err
             | .fuelOut => .fuelOut) := rfl
        have e2 : (gpdF cycStore (g + 1)).2 ["B"] ["B"] =
            (match (gpdF cycStore g).1 (.inr "B") true with
             | .ok ds => (gpdF cycStore g).2
                 (["B"] ++ ds.map PackageBase.name)
                 ([] ++ ds.map PackageBase.name)
             | .notFound m => .notFound m
             | .err => .err
             | .fuelOut => .fuelOut) := rfl
        rw [e1, e2, ihB']
      · have e1 : getPackageDeps cycStore (g + 2) (.inr "B") true =
            (match (gpdF cycStore (g + 1)).2 ["A"] ["A"] with
             | .ok acc => finalize cycStore acc
             | .notFound m => .notFound m
             | .err => .err
             | .fuelOut => .fuelOut) := rfl
        have e2 : (gpdF cycStore (g + 1)).2 ["A"] ["A"] =
            (match (gpdF cycStore g).1 (.inr "A") true with
             | .ok ds => (gpdF cycStore g).2
                 (["A"] ++ ds.map PackageBase.name)
                 ([] ++ ds.map PackageBase.name)
             | .notFound m => .notFound m
             | .err => .err
             | .fuelOut => .fuelOut) := rfl
        rw [e1, e2, ihA']

/-- C2 counterexample: with packages `A` and `B` depending on each
other, `dependencies_of("A")` with `recursive=True` never returns a
set: the recursive expansion loop of `get_package_deps` has no
visited-set guard, so the mutual recursion exceeds every fuel bound
(a Python `RecursionError`). -/
theorem c2_counterexample :
    ¬ ∃ (fuel : Nat) (l : List PackageBase),
      getPackageDeps cycStore fuel (.inr "A") true = .ok l := by
  rintro ⟨fuel, l, h⟩
  rw [(cyc_diverges fuel).1] at h
  exact PRes.noConfusion h

theorem getPackageFilesList_pkg {s : Store} {fuel : Nat} {n : String}
    {p : Package} (hp : getPackage s n = .ok (.pkg p)) :
    getPackageFilesList s fuel n = .ok (sortStrs p.files) := by
  unfold getPackageFilesList
  rw [hp]

theorem getPackageFilesList_meta {s : Store} {fuel : Nat} {n : String}
    {mp : MetaPackage} (hp : getPackage s n = .ok (.meta mp)) :
    getPackageFilesList s fuel n =
      match listMetapackageFiles s fuel mp with
      | .ok l => .ok (sortStrs l)
      | .notFound m => .notFound m
      | .err => .err
      | .fuelOut => .fuelOut := by
  unfold getPackageFilesList
  rw [hp]

theorem mem_extendFiles {x : String} :
    ∀ {ds : List PackageBase},
      x ∈ extendFiles ds ↔ ∃ p ∈ ds, x ∈ PackageBase.getFilesList p := by
  intro ds
  induction ds with
  | nil => simp [extendFiles]
  | cons p ps ih => simp [extendFiles, ih]

/-- C4 counterexample: `files_of` on a plain package is
`sorted(p.get_files_list())` with no deduplication, so a package whose
own file list repeats an entry yields a duplicated output — the claim's
"duplicate-free" fails for the registered name `dup`. -/
theorem c4_counterexample :
    getPackageFilesList dupStore 1 "dup" = .ok ["a", "a"] ∧
    ¬ (["a", "a"] : List String).Nodup :=
  ⟨rfl, by decide⟩

/-- C4 (amended): `files_of` of a plain package is its own file list
sorted — duplicate-free only when the package's own list is; `files_of`
of a MetaPackage is the deduplicated, sorted union of the file lists of
every package in its metapackage dependency closure, always sorted and
duplicate-free. -/
theorem c4_files_sorted {s : Store} {fuel : Nat} :
    (∀ (n : String) (p : Package) (l : List String),
      getPackage s n = .ok (.pkg p) → getPackageFilesList s fuel n = .ok l →
      l = sortStrs p.files ∧
      l.Pairwise (fun a b => strLe a b = true) ∧
      (p.files.Nodup → l.Nodup)) ∧
    (∀ (n : String) (mp : MetaPackage) (l : List String),
      getPackage s n = .ok (.meta mp) → getPackageFilesList s fuel n = .ok l →
      ∃ ds, listMetapackageDeps s fuel mp = .ok ds ∧
        l.Pairwise (fun a b => strLe a b = true) ∧ l.Nodup ∧
        ∀ x, x ∈ l ↔ ∃ p ∈ ds, x ∈ PackageBase.getFilesList p) := by
  constructor
  · intro n p l hp h
    rw [getPackageFilesList_pkg hp] at h
    simp only [PRes.ok.injEq] at h
    subst h
    exact ⟨rfl, sortStrs_pairwise _, fun hn => sortStrs_nodup hn⟩
  · intro n mp l hp h
    rw [getPackageFilesList_meta hp] at h
    split at h <;> try exact PRes.noConfusion h
    rename_i l1 hlf
    simp only [PRes.ok.injEq] at h
    subst h
    unfold listMetapackageFiles at hlf
    split at hlf <;> try exact PRes.noConfusion hlf
    rename_i ds hld
    simp only [PRes.ok.injEq] at hlf
    subst hlf
    have hn1 : (sortStrs (extendFiles ds).dedup).Nodup :=
      sortStrs_nodup (List.nodup_dedup _)
    refine ⟨ds, hld, sortStrs_pairwise _, sortStrs_nodup hn1, fun x => ?_⟩
    rw [mem_sortStrs, mem_sortStrs, List.mem_dedup]
    exact mem_extendFiles

theorem c4_files_sorted_witness :
    ∃ ds, listMetapackageDeps demoStore 5 mpDemo = .ok ds ∧
      (["f1", "f2", "f3"] : List String).Pairwise
        (fun a b => strLe a b = true) ∧
      (["f1", "f2", "f3"] : List String).Nodup ∧
      ∀ x, x ∈ (["f1", "f2", "f3"] : List String) ↔
        ∃ p ∈ ds, x ∈ PackageBase.getFilesList p :=
  (@c4_files_sorted demoStore 5).2 "m" mpDemo ["f1", "f2", "f3"] rfl rfl

/-- C8: `fill` is one-shot: a second call on an already-filled builder
returns immediately without touching the document or raising, so the
builder state after two calls to `fill` equals the state after one —
stated both as "a second call on any successfully filled builder
returns that same builder" and as idempotence of the whole operation. -/
theorem c8_fill_idempotent :
    (∀ (fuel : Nat) (pfx : String) (files : List String)
       (b b' : MergeModuleB),
      mmFillOp fuel pfx files b = some b' →
      mmFillOp fuel pfx files b' = some b') ∧
    (∀ (fuel : Nat) (pfx : String) (files : List String) (b : MergeModuleB),
      (mmFillOp fuel pfx files b).bind (mmFillOp fuel pfx files) =
        mmFillOp fuel pfx files b) := by
  have key : ∀ (fuel : Nat) (pfx : String) (files : List String)
      (b b' : MergeModuleB),
      mmFillOp fuel pfx files b = some b' →
      mmFillOp fuel pfx files b' = some b' := by
    intro fuel pfx files b b' h
    unfold mmFillOp at h ⊢
    by_cases hb : b.filled
    · rw [if_pos hb] at h
      cases h
      rw [if_pos hb]
    · rw [if_neg hb] at h
      cases hfill : mmFill fuel pfx files b.st.ids with
      | none => rw [hfill] at h; exact absurd h (by simp)
      | some st1 =>
        rw [hfill] at h
        simp only [Option.some.injEq] at h
        subst h
        rfl
  refine ⟨key, fun fuel pfx files b => ?_⟩
  cases h : mmFillOp fuel pfx files b with
  | none => rfl
  | some b' => simpa using key fuel pfx files b b' h

theorem c8_fill_idempotent_witness :
    mmFillOp 10 "p" ["d1/f1"]
        { filled := true
        , st := { dirnodes := ["", "d1"]
                , events := [Ev.dir "d1" "" "_d1", Ev.comp "d1" "_f1",
                             Ev.file "_f1_1"]
                , ids := [("_f1", 1), ("_d1", 0)] } }
      = some
        { filled := true
        , st := { dirnodes := ["", "d1"]
                , events := [Ev.dir "d1" "" "_d1", Ev.comp "d1" "_f1",
                             Ev.file "_f1_1"]
                , ids := [("_f1", 1), ("_d1", 0)] } } :=
  c8_fill_idempotent.1 10 "p" ["d1/f1"]
    { filled := false, st := mmInitState [] } _ rfl

theorem loadPackages_foldl :
    ∀ (es : List LoadEntry) (acc : Store × Nat),
      es.foldl loadStep acc =
        ((es.filterMap (fun e =>
            if strEndsWith e.fname ".package" then e.parsed
            else none)).reverse ++ acc.1,
         acc.2 + (es.filter (fun e =>
            strEndsWith e.fname ".package" && e.parsed.isNone)).length) := by
  intro es
  induction es with
  | nil => intro acc; simp
  | cons e es ih =>
    intro acc
    by_cases he : strEndsWith e.fname ".package"
    · cases hp : e.parsed with
      | none =>
        simp only [List.foldl_cons, List.filterMap_cons, List.filter_cons,
          loadStep, he, hp, if_pos, Option.isNone_none, Bool.and_true,
          if_true, ih]
        simp [hp, he]
        omega
      | some p =>
        simp only [List.foldl_cons, List.filterMap_cons, List.filter_cons,
          loadStep, he, hp, if_pos, if_true, ih]
        simp [hp, he, addPackage]
    · simp only [List.foldl_cons, List.filterMap_cons, List.filter_cons,
        loadStep, he, if_false, ih]
      simp [he]

/-- C6: registry loading aborts fatally exactly when the descriptor
directory is missing; otherwise every listing is processed to the end:
each bad `.package` descriptor contributes exactly one warning and no
store entry, every good one is registered, and non-`.package` files are
ignored — one bad descriptor never aborts the load. -/
theorem c6_load_warn_skip :
    (∀ (d : Bool) (es : List LoadEntry),
      (∃ msg, storeInit d es = .error msg) ↔ d = false) ∧
    (∀ es : List LoadEntry,
      storeInit true es = .ok
        ((es.filterMap (fun e =>
            if strEndsWith e.fname ".package" then e.parsed
            else none)).reverse,
         (es.filter (fun e =>
            strEndsWith e.fname ".package" && e.parsed.isNone)).length)) := by
  constructor
  · intro d es
    cases d with
    | false => simp [storeInit]
    | true => simp [storeInit]
  · intro es
    unfold storeInit loadPackages
    rw [if_pos rfl, loadPackages_foldl es ([], 0)]
    simp

theorem c6_load_warn_skip_witness :
    storeInit true loadEntries = .ok ([PackageBase.pkg pBase], 1) := by
  have h := c6_load_warn_skip.2 loadEntries
  rw [h]
  rfl

/-! Injectivity of Python decimal formatting (`Nat.repr` embeds
`'%s' % count`), proved through a decimal evaluation of the produced
digit string. -/

theorem digitChar_val : ∀ m : Nat, m < 10 → (Nat.digitChar m).toNat - 48 = m := by
  decide

theorem toDigitsCore_val : ∀ (fuel n : Nat) (ds : List Char), n < fuel →
    (Nat.toDigitsCore 10 fuel n ds).foldl
        (fun acc c => acc * 10 + (c.toNat - 48)) 0 =
      ds.foldl (fun acc c => acc * 10 + (c.toNat - 48)) n := by
  intro fuel
  induction fuel with
  | zero => intro n ds h; exact absurd h (Nat.not_lt_zero _)
  | succ f ih =>
    intro n ds hn
    simp only [Nat.toDigitsCore]
    by_cases h0 : n / 10 = 0
    · rw [if_pos h0]
      simp only [List.foldl_cons]
      rw [digitChar_val (n % 10) (Nat.mod_lt _ (by omega))]
      have hmod : 0 * 10 + n % 10 = n := by omega
      rw [hmod]
    · rw [if_neg h0]
      rw [ih (n / 10) (Nat.digitChar (n % 10) :: ds) (by omega)]
      simp only [List.foldl_cons]
      rw [digitChar_val (n % 10) (Nat.mod_lt _ (by omega))]
      have hdm : n / 10 * 10 + n % 10 = n := by omega
      rw [hdm]

theorem natRepr_foldl (n : Nat) :
    (Nat.repr n).data.foldl (fun acc c => acc * 10 + (c.toNat - 48)) 0 = n := by
  have e : (Nat.repr n).data = Nat.toDigitsCore 10 (n + 1) n [] := rfl
  rw [e]
  exact toDigitsCore_val (n + 1) n [] (Nat.lt_succ_self n)

theorem natRepr_inj {m n : Nat} (h : Nat.repr m = Nat.repr n) : m = n := by
  have hm := natRepr_foldl m
  rw [h, natRepr_foldl n] at hm
  exact hm.symm

theorem toDigitsCore_len : ∀ (fuel n : Nat) (ds : List Char),
    ds.length ≤ (Nat.toDigitsCore 10 fuel n ds).length := by
  intro fuel
  induction fuel with
  | zero => intro n ds; simp [Nat.toDigitsCore]
  | succ f ih =>
    intro n ds
    simp only [Nat.toDigitsCore]
    by_cases h0 : n / 10 = 0
    · rw [if_pos h0]; simp
    · rw [if_neg h0]
      have := ih (n / 10) (Nat.digitChar (n % 10) :: ds)
      simp only [List.length_cons] at this
      omega

theorem natRepr_data_ne_nil (n : Nat) : (Nat.repr n).data ≠ [] := by
  have e : (Nat.repr n).data = Nat.toDigitsCore 10 (n + 1) n [] := rfl
  rw [e]
  simp only [Nat.toDigitsCore]
  by_cases h0 : n / 10 = 0
  · rw [if_pos h0]; simp
  · rw [if_neg h0]
    intro hcon
    have hlen := toDigitsCore_len n (n / 10) [Nat.digitChar (n % 10)]
    rw [hcon] at hlen
    simp at hlen

theorem stringDataInj {a b : String} (h : a.data = b.data) : a = b := by
  cases a; cases b; exact congrArg String.mk h

theorem stringAppendData (a b : String) :
    (a ++ b).data = a.data ++ b.data := by
  cases a; cases b; rfl

theorem suffixed_ne_tok {t : String} (k : Nat) :
    t ++ "_" ++ Nat.repr k ≠ t := by
  intro h
  have hd := congrArg String.data h
  rw [stringAppendData, stringAppendData] at hd
  have hlen := congrArg List.length hd
  simp only [List.length_append] at hlen
  have hne := natRepr_data_ne_nil k
  have : (Nat.repr k).data.length ≠ 0 := fun h0 => hne (List.length_eq_zero.1 h0)
  have hus : ("_" : String).data.length = 1 := rfl
  omega

theorem suffixed_inj {t : String} {a b : Nat}
    (h : t ++ "_" ++ Nat.repr a = t ++ "_" ++ Nat.repr b) : a = b := by
  have hd := congrArg String.data h
  rw [stringAppendData, stringAppendData, stringAppendData,
    stringAppendData] at hd
  exact natRepr_inj (stringDataInj (List.append_cancel_left hd))

/-! Behavior of the `self.ids` collision-counter dict. -/

theorem idsFind_set_self (ids : Ids) (k : String) (n : Nat) :
    idsFind (idsSet ids k n) k = some n := by
  unfold idsFind idsSet
  rw [List.find?_cons_of_pos _ (by simp)]
  rfl

theorem find?_filter_ne {ids : Ids} {k k' : String} (h : k' ≠ k) :
    (ids.filter (fun kv => !(kv.1 == k))).find? (fun kv => kv.1 == k')
      = ids.find? (fun kv => kv.1 == k') := by
  induction ids with
  | nil => rfl
  | cons e es ih =>
    by_cases he : e.1 = k
    · rw [List.filter_cons_of_neg (by simp [he]),
        List.find?_cons_of_neg _ (by simp [he, Ne.symm h]), ih]
    · rw [List.filter_cons_of_pos (by simp [he])]
      by_cases he' : e.1 = k'
      · rw [List.find?_cons_of_pos _ (by simp [he']),
          List.find?_cons_of_pos _ (by simp [he'])]
      · rw [List.find?_cons_of_neg _ (by simp [he']),
          List.find?_cons_of_neg _ (by simp [he']), ih]

theorem idsFind_set_other {ids : Ids} {k k' : String} (n : Nat)
    (h : k' ≠ k) : idsFind (idsSet ids k n) k' = idsFind ids k' := by
  unfold idsFind idsSet
  rw [List.find?_cons_of_neg _ (by simp [Ne.symm h]), find?_filter_ne h]

theorem formatPathId_fresh {ids : Ids} {p : String} {rd : Bool}
    (h : idsFind ids (pathToken p rd) = none) :
    formatPathId ids p rd = (pathToken p rd, idsSet ids (pathToken p rd) 0) := by
  simp only [formatPathId]
  rw [h]

theorem formatPathId_seen {ids : Ids} {p : String} {rd : Bool} {k : Nat}
    (h : idsFind ids (pathToken p rd) = some k) :
    formatPathId ids p rd =
      (pathToken p rd ++ "_" ++ Nat.repr (k + 1),
       idsSet ids (pathToken p rd) (k + 1)) := by
  simp only [formatPathId]
  rw [h]
  simp

theorem runPathIds_mono :
    ∀ (mids : List (String × Bool)) (ids : Ids) (t : String) (k : Nat),
      idsFind ids t = some k →
      ∃ k', k ≤ k' ∧ idsFind (runPathIds ids mids).2 t = some k' := by
  intro mids
  induction mids with
  | nil => intro ids t k h; exact ⟨k, Nat.le_refl k, h⟩
  | cons c rest ih =>
    intro ids t k h
    obtain ⟨p, rd⟩ := c
    have e : (runPathIds ids ((p, rd) :: rest)).2
        = (runPathIds (formatPathId ids p rd).2 rest).2 := rfl
    rw [e]
    by_cases ht : t = pathToken p rd
    · subst ht
      have hc : idsFind (formatPathId ids p rd).2 (pathToken p rd)
          = some (k + 1) := by
        rw [formatPathId_seen h]
        exact idsFind_set_self _ _ _
      obtain ⟨k', hk', hfk⟩ := ih _ (pathToken p rd) (k + 1) hc
      exact ⟨k', by omega, hfk⟩
    · have hc : idsFind (formatPathId ids p rd).2 t = some k := by
        cases hf : idsFind ids (pathToken p rd) with
        | none =>
          rw [formatPathId_fresh hf]
          exact (idsFind_set_other 0 ht).trans h
        | some k0 =>
          rw [formatPathId_seen hf]
          exact (idsFind_set_other (k0 + 1) ht).trans h
      exact ih _ t k hc

/-- C7 counterexample: the spec's example pair does not collide — the
separator escaping makes the sanitized tokens of `a/b` and `a_b`
distinct (`_b` versus `_a__b`), so the second call does not receive a
`_1` suffix. -/
theorem c7_counterexample :
    pathToken "a/b" false ≠ pathToken "a_b" false ∧
    pathToken "a/b" false = "_b" ∧ pathToken "a_b" false = "_a__b" ∧
    (runPathIds [] [("a/b", false), ("a_b", false)]).1 = ["_b", "_a__b"] := by
  refine ⟨?_, rfl, rfl, rfl⟩
  decide

/-- C7 (amended): within one builder, whenever two `_format_path_id`
calls produce the same sanitized token the returned identifiers are
distinct — the first occurrence of a token returns it bare, every later
occurrence appends the bumped per-token counter as `_1`, `_2`, ... —
and a same-basename pair such as `a/b`, `c/b` (rather than the spec's
`a/b`, `a_b`) collides, the second call returning the first identifier
with suffix `_1`. -/
theorem c7_path_id_unique :
    (∀ (ids : Ids) (p1 p2 : String) (rd1 rd2 : Bool)
       (mids : List (String × Bool)),
      pathToken p1 rd1 = pathToken p2 rd2 →
      (formatPathId ids p1 rd1).1 ≠
        (formatPathId (runPathIds (formatPathId ids p1 rd1).2 mids).2
          p2 rd2).1) ∧
    (∀ (ids : Ids) (p : String) (rd : Bool),
      idsFind ids (pathToken p rd) = none →
      (formatPathId ids p rd).1 = pathToken p rd) ∧
    (∀ (ids : Ids) (p : String) (rd : Bool) (k : Nat),
      idsFind ids (pathToken p rd) = some k →
      (formatPathId ids p rd).1 =
        pathToken p rd ++ "_" ++ Nat.repr (k + 1)) ∧
    (runPathIds [] [("a/b", false), ("c/b", false)]).1 = ["_b", "_b_1"] := by
  refine ⟨?_, ?_, ?_, rfl⟩
  · intro ids p1 p2 rd1 rd2 mids htok
    cases hf : idsFind ids (pathToken p1 rd1) with
    | none =>
      have h1 := formatPathId_fresh hf
      have hc0 : idsFind (formatPathId ids p1 rd1).2 (pathToken p1 rd1)
          = some 0 := by
        rw [h1]
        exact idsFind_set_self _ _ _
      obtain ⟨k', _, hk'⟩ := runPathIds_mono mids _ _ 0 hc0
      have hf2 : idsFind (runPathIds (formatPathId ids p1 rd1).2 mids).2
          (pathToken p2 rd2) = some k' := by
        rw [← htok]
        exact hk'
      rw [formatPathId_seen hf2, h1, ← htok]
      exact (suffixed_ne_tok (k' + 1)).symm
    | some k =>
      have h1 := formatPathId_seen hf
      have hc0 : idsFind (formatPathId ids p1 rd1).2 (pathToken p1 rd1)
          = some (k + 1) := by
        rw [h1]
        exact idsFind_set_self _ _ _
      obtain ⟨k', hk'ge, hk'⟩ := runPathIds_mono mids _ _ (k + 1) hc0
      have hf2 : idsFind (runPathIds (formatPathId ids p1 rd1).2 mids).2
          (pathToken p2 rd2) = some k' := by
        rw [← htok]
        exact hk'
      rw [formatPathId_seen hf2, h1, ← htok]
      intro hcon
      have := suffixed_inj hcon
      omega
  · intro ids p rd h
    rw [formatPathId_fresh h]
  · intro ids p rd k h
    rw [formatPathId_seen h]

theorem c7_path_id_unique_witness :
    (formatPathId [] "a/b" false).1 ≠
      (formatPathId (runPathIds (formatPathId [] "a/b" false).2 []).2
        "c/b" false).1 :=
  c7_path_id_unique.1 [] "a/b" "c/b" false false [] rfl

/-! Lemmas for the merge-module directory tree (C9). -/

theorem length_dropWhile_le' {α : Type} {q : α → Bool} :
    ∀ l : List α, (l.dropWhile q).length ≤ l.length := by
  intro l
  induction l with
  | nil => simp
  | cons a as ih =>
    cases hqa : q a with
    | true =>
      rw [List.dropWhile_cons_of_pos hqa]
      exact Nat.le_trans ih (Nat.le_succ _)
    | false =>
      rw [List.dropWhile_cons_of_neg (by simp [hqa])]

theorem dropWhile_head_false {α : Type} {q : α → Bool} :
    ∀ {l : List α} {x : α} {xs : List α},
      l.dropWhile q = x :: xs → q x = false := by
  intro l
  induction l with
  | nil => intro x xs h; exact absurd h (by simp)
  | cons a as ih =>
    intro x xs h
    cases hqa : q a with
    | true =>
      rw [List.dropWhile_cons_of_pos hqa] at h
      exact ih h
    | false =>
      rw [List.dropWhile_cons_of_neg (by simp [hqa])] at h
      injection h with h1 _
      subst h1
      exact hqa

theorem dropWhile_of_takeWhile_nil {α : Type} {q : α → Bool} :
    ∀ {l : List α}, l.takeWhile q = [] → l.dropWhile q = l := by
  intro l
  induction l with
  | nil => intro _; rfl
  | cons a as _ =>
    intro h
    cases hqa : q a with
    | true => rw [List.takeWhile_cons_of_pos hqa] at h; exact absurd h (by simp)
    | false => rw [List.dropWhile_cons_of_neg (by simp [hqa])]

theorem dropWhile_length_lt_of_takeWhile_cons {α : Type} {q : α → Bool} :
    ∀ {l : List α} {c : α} {cs : List α},
      l.takeWhile q = c :: cs → (l.dropWhile q).length < l.length := by
  intro l
  induction l with
  | nil => intro c cs h; exact absurd h (by simp)
  | cons a as _ =>
    intro c cs h
    cases hqa : q a with
    | true =>
      rw [List.dropWhile_cons_of_pos hqa]
      exact Nat.lt_succ_of_le (length_dropWhile_le' as)
    | false => rw [List.takeWhile_cons_of_neg (by simp [hqa])] at h; exact absurd h (by simp)

theorem stringMkData (p : String) : String.mk p.data = p := by
  cases p; rfl

/-- `posixpath.split` either leaves the path unchanged (only for `""`
and all-slash paths) or strictly shortens it. -/
theorem pySplit_fst (p : String) :
    (pySplit p).1 = p ∨ (pySplit p).1.length < p.length := by
  simp only [pySplit, String.length]
  by_cases hall : (p.data.reverse.dropWhile (fun c => !(c == '/'))).all
      (fun c => c == '/')
  · rw [if_pos hall]
    cases htake : p.data.reverse.takeWhile (fun c => !(c == '/')) with
    | nil =>
      left
      rw [dropWhile_of_takeWhile_nil htake, List.reverse_reverse]
    | cons c cs =>
      right
      have hlt := dropWhile_length_lt_of_takeWhile_cons htake
      simpa [List.length_reverse] using hlt
  · rw [if_neg hall]
    right
    cases hdrop : p.data.reverse.dropWhile (fun c => !(c == '/')) with
    | nil => exact absurd (by simp [hdrop]) hall
    | cons x xs =>
      have hx := dropWhile_head_false hdrop
      have hx' : (x == '/') = true := by
        cases hxx : x == '/' with
        | true => rfl
        | false => rw [hxx] at hx; exact absurd hx (by simp)
      have hstep : List.dropWhile (fun c => c == '/') (x :: xs)
          = List.dropWhile (fun c => c == '/') xs := by
        simp [List.dropWhile_cons, hx']
      rw [hstep]
      have h1 : (xs.dropWhile (fun c => c == '/')).length ≤ xs.length :=
        length_dropWhile_le' xs
      have h2 : (x :: xs).length ≤ p.data.reverse.length :=
        hdrop ▸ length_dropWhile_le' p.data.reverse
      simp only [List.length_cons, List.length_reverse] at h2
      simp only [List.length_reverse]
      omega

theorem dirPaths_append : ∀ (a b : List Ev),
    dirPaths (a ++ b) = dirPaths a ++ dirPaths b := by
  intro a
  induction a with
  | nil => intro b; rfl
  | cons e evs ih =>
    intro b
    cases e with
    | dir p parent id => simp [dirPaths, ih]
    | comp dp cid => simp [dirPaths, ih]
    | file fid => simp [dirPaths, ih]

theorem wfEvents_append : ∀ (evs : List Ev) (seen : List String)
    (evs2 : List Ev),
    wfEvents seen (evs ++ evs2) = true ↔
      (wfEvents seen evs = true ∧
       wfEvents (seen ++ dirPaths evs) evs2 = true) := by
  intro evs
  induction evs with
  | nil => intro seen evs2; simp [wfEvents, dirPaths]
  | cons e evs ih =>
    intro seen evs2
    cases e with
    | dir p parent id =>
      simp only [List.cons_append, List.append_eq, wfEvents, dirPaths,
        Bool.and_eq_true, ih, List.append_assoc, List.singleton_append]
      tauto
    | comp dp cid =>
      simp only [List.cons_append, List.append_eq, wfEvents, dirPaths,
        Bool.and_eq_true, ih]
      tauto
    | file fid => simp [wfEvents, dirPaths, ih, List.append_eq]

theorem mmInv_addDir {st1 : MMState} {dirpath parent id : String}
    {ids' : Ids} (hinv : mmInv st1) (hpar : parent ∈ st1.dirnodes)
    (hnew : dirpath ∉ st1.dirnodes) :
    mmInv { dirnodes := st1.dirnodes ++ [dirpath]
          , events := st1.events ++ [Ev.dir dirpath parent id]
          , ids := ids' } := by
  obtain ⟨hwf, hdn⟩ := hinv
  rw [hdn] at hpar hnew
  constructor
  · refine (wfEvents_append _ _ _).2 ⟨hwf, ?_⟩
    have hseen : ([""] ++ dirPaths st1.events) = "" :: dirPaths st1.events := rfl
    rw [hseen]
    simp [wfEvents, hpar, hnew]
  · show st1.dirnodes ++ [dirpath]
      = "" :: dirPaths (st1.events ++ [Ev.dir dirpath parent id])
    rw [hdn, dirPaths_append]
    rfl

theorem mmInv_addCompFile {st1 : MMState} {dp cid fid : String}
    {ids' : Ids} (hinv : mmInv st1) (hdp : dp ∈ st1.dirnodes) :
    mmInv { dirnodes := st1.dirnodes
          , events := st1.events ++ [Ev.comp dp cid, Ev.file fid]
          , ids := ids' } := by
  obtain ⟨hwf, hdn⟩ := hinv
  rw [hdn] at hdp
  constructor
  · refine (wfEvents_append _ _ _).2 ⟨hwf, ?_⟩
    have hseen : ([""] ++ dirPaths st1.events) = "" :: dirPaths st1.events := rfl
    rw [hseen]
    simp [wfEvents, hdp]
  · show st1.dirnodes
      = "" :: dirPaths (st1.events ++ [Ev.comp dp cid, Ev.file fid])
    rw [hdn, dirPaths_append]
    simp [dirPaths]

/-- A path equal to its own `split` head (`""`, `"/"`, `"//"`, ...)
that has no Directory node makes `_add_directory` recurse on itself
forever (Python `RecursionError`; `none` at every fuel). -/
theorem addDirectory_self {q : String} (hq : (pySplit q).1 = q) :
    ∀ (fuel : Nat) (st : MMState), q ∉ st.dirnodes →
      addDirectory fuel st q = none := by
  intro fuel
  induction fuel with
  | zero => intro st _; rfl
  | succ f ih =>
    intro st h
    simp only [addDirectory, hq]
    rw [if_neg h, if_neg h, ih st h]

theorem addDirectory_inv :
    ∀ (fuel : Nat) (st : MMState) (dirpath : String) (st' : MMState),
      addDirectory fuel st dirpath = some st' → mmInv st →
      mmInv st' ∧ dirpath ∈ st'.dirnodes ∧ st.dirnodes ⊆ st'.dirnodes ∧
      (∀ x ∈ st'.dirnodes, x ∈ st.dirnodes ∨ x.length ≤ dirpath.length) := by
  intro fuel
  induction fuel with
  | zero => intro st dp st' h _; exact absurd h (by simp [addDirectory])
  | succ f ih =>
    intro st dp st' h hinv
    simp only [addDirectory] at h
    split at h
    · rename_i hmem
      simp only [Option.some.injEq] at h
      subst h
      exact ⟨hinv, hmem, List.Subset.refl _, fun x hx => Or.inl hx⟩
    · rename_i hnmem
      split at h <;> try exact Option.noConfusion h
      rename_i st1 hr
      split at h <;> try exact Option.noConfusion h
      rename_i hpar1
      simp only [Option.some.injEq] at h
      subst h
      by_cases hps : (pySplit dp).1 ∈ st.dirnodes
      · rw [if_pos hps] at hr
        simp only [Option.some.injEq] at hr
        subst hr
        refine ⟨mmInv_addDir hinv hpar1 hnmem, by simp,
          List.subset_append_left _ _, fun x hx => ?_⟩
        rcases List.mem_append.1 hx with hx1 | hx1
        · exact Or.inl hx1
        · simp only [List.mem_singleton] at hx1
          subst hx1
          exact Or.inr (Nat.le_refl _)
      · rw [if_neg hps] at hr
        have hne : (pySplit dp).1 ≠ dp := by
          intro he
          rw [he] at hr
          rw [addDirectory_self he f st hnmem] at hr
          exact Option.noConfusion hr
        have hlt : (pySplit dp).1.length < dp.length :=
          (pySplit_fst dp).resolve_left hne
        obtain ⟨hinv1, hpmem, hsub1, hlen1⟩ := ih st (pySplit dp).1 st1 hr hinv
        have hdpnew : dp ∉ st1.dirnodes := by
          intro hcon
          rcases hlen1 dp hcon with hin | hle
          · exact hnmem hin
          · omega
        refine ⟨mmInv_addDir hinv1 hpar1 hdpnew, by simp,
          hsub1.trans (List.subset_append_left _ _), fun x hx => ?_⟩
        rcases List.mem_append.1 hx with hx1 | hx1
        · rcases hlen1 x hx1 with hin | hle
          · exact Or.inl hin
          · exact Or.inr (by omega)
        · simp only [List.mem_singleton] at hx1
          subst hx1
          exact Or.inr (Nat.le_refl _)

theorem addFile_inv {fuel : Nat} {pfx : String} {st : MMState} {f : String}
    {st' : MMState} (h : addFile fuel pfx st f = some st')
    (hinv : mmInv st) :
    mmInv st' ∧ (pySplit f).1 ∈ st'.dirnodes ∧
      st.dirnodes ⊆ st'.dirnodes := by
  simp only [addFile] at h
  split at h <;> try exact Option.noConfusion h
  rename_i st1 hdir
  split at h <;> try exact Option.noConfusion h
  rename_i hdp
  simp only [Option.some.injEq] at h
  subst h
  obtain ⟨hinv1, _, hsub1, _⟩ := addDirectory_inv fuel st (pySplit f).1 st1 hdir hinv
  exact ⟨mmInv_addCompFile hinv1 hdp, hdp, hsub1⟩

theorem addFiles_inv :
    ∀ (files : List String) (fuel : Nat) (pfx : String) (st st' : MMState),
      addFiles fuel pfx st files = some st' → mmInv st →
      mmInv st' ∧ st.dirnodes ⊆ st'.dirnodes ∧
      ∀ f ∈ files, (pySplit f).1 ∈ st'.dirnodes := by
  intro files
  induction files with
  | nil =>
    intro fuel pfx st st' h hinv
    simp only [addFiles, Option.some.injEq] at h
    subst h
    exact ⟨hinv, List.Subset.refl _, by simp⟩
  | cons f fs ih =>
    intro fuel pfx st st' h hinv
    simp only [addFiles] at h
    split at h <;> try exact Option.noConfusion h
    rename_i st1 hf
    obtain ⟨hinv1, hmem1, hsub1⟩ := addFile_inv hf hinv
    obtain ⟨hinv', hsub', hall'⟩ := ih fuel pfx st1 st' h hinv1
    refine ⟨hinv', hsub1.trans hsub', fun g hg => ?_⟩
    rcases List.mem_cons.1 hg with hg1 | hg1
    · exact hg1 ▸ hsub' hmem1
    · exact hall' g hg1

theorem wfEvents_nodup : ∀ (evs : List Ev) (seen : List String),
    wfEvents seen evs = true →
    (dirPaths evs).Nodup ∧ ∀ p ∈ dirPaths evs, p ∉ seen := by
  intro evs
  induction evs with
  | nil => intro seen _; exact ⟨List.nodup_nil, by simp [dirPaths]⟩
  | cons e evs ih =>
    intro seen hwf
    cases e with
    | dir p parent id =>
      simp only [wfEvents, Bool.and_eq_true, decide_eq_true_eq,
        Bool.not_eq_true', decide_eq_false_iff_not] at hwf
      obtain ⟨⟨hpar, hnew⟩, hrest⟩ := hwf
      obtain ⟨hnd, hnin⟩ := ih (seen ++ [p]) hrest
      constructor
      · refine List.nodup_cons.2 ⟨fun hcon => ?_, hnd⟩
        exact hnin p hcon (by simp)
      · intro q hq
        rcases List.mem_cons.1 hq with hq1 | hq1
        · exact hq1 ▸ hnew
        · intro hqs
          exact hnin q hq1 (List.mem_append_left _ hqs)
    | comp dp cid =>
      simp only [wfEvents, Bool.and_eq_true] at hwf
      exact ih seen hwf.2
    | file fid =>
      simp only [wfEvents] at hwf
      exact ih seen hwf

/-- C9: whenever `_fill` completes on a file list, the produced
document tree is well formed: every Directory node was created under an
already-present parent (parents before children, the root registered at
`""`), no directory path ever receives a second node (creation is
memoized by full path), every Component/File node is attached under a
directory node created before it, and every file's parent directory has
a node. -/
theorem c9_directory_tree {fuel : Nat} {pfx : String} {files : List String}
    {ids0 : Ids} {st : MMState} (h : mmFill fuel pfx files ids0 = some st) :
    wfEvents [""] st.events = true ∧
    (dirPaths st.events).Nodup ∧
    st.dirnodes = "" :: dirPaths st.events ∧
    ∀ f ∈ files, (pySplit f).1 ∈ st.dirnodes := by
  have hinv0 : mmInv (mmInitState ids0) := ⟨rfl, rfl⟩
  obtain ⟨⟨hwf, hdn⟩, _, hall⟩ :=
    addFiles_inv files fuel pfx (mmInitState ids0) st h hinv0
  exact ⟨hwf, (wfEvents_nodup st.events [""] hwf).1, hdn, hall⟩

theorem c9_directory_tree_witness :
    wfEvents [""] [Ev.dir "d1" "" "_d1", Ev.comp "d1" "_f1", Ev.file "_f1_1",
        Ev.comp "d1" "_f2", Ev.file "_f2_1", Ev.dir "d1/d2" "d1" "_d2",
        Ev.comp "d1/d2" "_f3", Ev.file "_f3_1"] = true ∧
    (dirPaths [Ev.dir "d1" "" "_d1", Ev.comp "d1" "_f1", Ev.file "_f1_1",
        Ev.comp "d1" "_f2", Ev.file "_f2_1", Ev.dir "d1/d2" "d1" "_d2",
        Ev.comp "d1/d2" "_f3", Ev.file "_f3_1"]).Nodup ∧
    (["", "d1", "d1/d2"] : List String) =
      "" :: dirPaths [Ev.dir "d1" "" "_d1", Ev.comp "d1" "_f1",
        Ev.file "_f1_1", Ev.comp "d1" "_f2", Ev.file "_f2_1",
        Ev.dir "d1/d2" "d1" "_d2", Ev.comp "d1/d2" "_f3", Ev.file "_f3_1"] ∧
    ∀ f ∈ (["d1/f1", "d1/f2", "d1/d2/f3"] : List String),
      (pySplit f).1 ∈ (["", "d1", "d1/d2"] : List String) :=
  @c9_directory_tree 10 "p" ["d1/f1", "d1/f2", "d1/d2/f3"] []
    { dirnodes := ["", "d1", "d1/d2"]
    , events := [Ev.dir "d1" "" "_d1", Ev.comp "d1" "_f1", Ev.file "_f1_1",
        Ev.comp "d1" "_f2", Ev.file "_f2_1", Ev.dir "d1/d2" "d1" "_d2",
        Ev.comp "d1/d2" "_f3", Ev.file "_f3_1"]
    , ids := [("_f3", 1), ("_d2", 0), ("_f2", 1), ("_f1", 1), ("_d1", 0)] }
    rfl

theorem reqExtendLoop_mem {s : Store} {fuel : Nat} :
    ∀ {ps ext : List PackageBase},
      reqExtendLoop s fuel ps = .ok ext → ∀ x : PackageBase,
        (x ∈ ext ↔ ∃ p ∈ ps, ∃ dl,
          getPackageDeps s fuel (.inl p) false = .ok dl ∧ x ∈ dl) := by
  intro ps
  induction ps with
  | nil =>
    intro ext h x
    simp only [reqExtendLoop, PRes.ok.injEq] at h
    subst h
    simp
  | cons p ps ih =>
    intro ext h x
    unfold reqExtendLoop at h
    split at h <;> try exact PRes.noConfusion h
    rename_i ds hds
    split at h <;> try exact PRes.noConfusion h
    rename_i rest hrest
    simp only [PRes.ok.injEq] at h
    subst h
    constructor
    · intro hx
      rcases List.mem_append.1 hx with hx1 | hx1
      · exact ⟨p, by simp, ds, hds, hx1⟩
      · rcases (ih hrest x).1 hx1 with ⟨p', hp', dl, hdl, hxdl⟩
        exact ⟨p', by simp [hp'], dl, hdl, hxdl⟩
    · rintro ⟨p', hp', dl, hdl, hxdl⟩
      rcases List.mem_cons.1 hp' with hp1 | hp1
      · subst hp1
        rw [hds] at hdl
        simp only [PRes.ok.injEq] at hdl
        subst hdl
        exact List.mem_append_left _ hxdl
      · exact List.mem_append_right _
          ((ih hrest x).2 ⟨p', hp1, dl, hdl, hxdl⟩)

/-- C1 counterexample: with the chain `p1 -> p2 -> p3` and required
constituent `p1`, the required-set the code computes is `{p1, p2}` —
`req` plus each required constituent's DIRECT dependencies
(`get_package_deps` at its default `recursive=False`) — while the
claim's union of transitive closures also holds `p3`; consequently the
non-required constituent `q` (deps `[p3]`) keeps a MergeRef for `p3`
even though `p3` belongs to the claimed global required-set. -/
theorem c1_counterexample :
    msiRequiredPackages c1store 5 c1pd c1mp =
      .ok [PackageBase.pkg c1p1, PackageBase.pkg c1p2] ∧
    claimRequiredSet c1store 5 c1mp =
      .ok [PackageBase.pkg c1p1, PackageBase.pkg c1p2,
        PackageBase.pkg c1p3] ∧
    (PackageBase.pkg c1p3 ∈
      [PackageBase.pkg c1p1, PackageBase.pkg c1p2, PackageBase.pkg c1p3]) ∧
    (PackageBase.pkg c1p3 ∉
      [PackageBase.pkg c1p1, PackageBase.pkg c1p2]) ∧
    getPackageDeps c1store 5 (.inl (.pkg c1q)) false =
      .ok [PackageBase.pkg c1p3] ∧
    msiMergeRefs [PackageBase.pkg c1p3]
        [PackageBase.pkg c1p1, PackageBase.pkg c1p2] false =
      [PackageBase.pkg c1p3] :=
  ⟨rfl, rfl, by decide, by decide, rfl, rfl⟩

/-- C1 (amended): the global required-set `_add_merge_modules` computes
is the list of required active constituents followed by their DIRECT
dependency lists (`get_package_deps` runs at its default
`recursive=False`), not a transitive closure; a required constituent's
feature keeps exactly (as a set) those of its dependencies that lie in
this set, a non-required one exactly those that do not. -/
theorem c1_required_set :
    (∀ (s : Store) (fuel : Nat) (pd : List PackageBase) (mp : MetaPackage)
       (R : List PackageBase),
      msiRequiredPackages s fuel pd mp = .ok R →
      ∃ trips, resolveTriples s mp.packages = .ok trips ∧
        ∀ x, (x ∈ R ↔ x ∈ msiReq (msiActivePackages pd trips) ∨
          ∃ p ∈ msiReq (msiActivePackages pd trips), ∃ dl,
            getPackageDeps s fuel (.inl p) false = .ok dl ∧ x ∈ dl)) ∧
    (∀ (deps R : List PackageBase) (x : PackageBase),
      (x ∈ msiMergeRefs deps R true ↔ x ∈ deps ∧ x ∈ R) ∧
      (x ∈ msiMergeRefs deps R false ↔ x ∈ deps ∧ x ∉ R)) := by
  constructor
  · intro s fuel pd mp R h
    simp only [msiRequiredPackages] at h
    split at h <;> try exact PRes.noConfusion h
    rename_i trips htrips
    split at h <;> try exact PRes.noConfusion h
    rename_i ext hext
    simp only [PRes.ok.injEq] at h
    subst h
    refine ⟨trips, htrips, fun x => ?_⟩
    rw [List.mem_append, reqExtendLoop_mem hext x]
  · intro deps R x
    constructor
    · simp [msiMergeRefs]
    · simp [msiMergeRefs]

theorem c1_required_set_witness :
    ∃ trips, resolveTriples c1store c1mp.packages = .ok trips ∧
      ∀ x, (x ∈ [PackageBase.pkg c1p1, PackageBase.pkg c1p2] ↔
        x ∈ msiReq (msiActivePackages c1pd trips) ∨
        ∃ p ∈ msiReq (msiActivePackages c1pd trips), ∃ dl,
          getPackageDeps c1store 5 (.inl p) false = .ok dl ∧ x ∈ dl) :=
  c1_required_set.1 c1store 5 c1pd c1mp
    [PackageBase.pkg c1p1, PackageBase.pkg c1p2] rfl

end Cerbero
